import Mathlib

/-
Verification of src/publish-registry.ts (types-publisher).

The file embeds the registry-publishing pipeline shallowly:
  * the bounded concurrent mapper `nAtATime` (from src/util/util.ts, whose
    source is not part of this tree) is modelled from the specification as a
    small-step machine: a shared cursor, a multiset of in-flight indices, and
    counts of idle/retired workers; a schedule (list of actions) picks the
    interleaving, so theorems quantified over schedules cover every
    completion order;
  * the registry-generation functions (`generateRegistry`, `getVersions`,
    `pick`, `generatePackageJson`) are translated directly from the source;
  * `main` / `generateAndPublishRegistry` / `generate` / `publish` are
    embedded as trace-producing functions over an environment of external
    collaborators, recording every externally visible effect as an `Event`.
-/

namespace PublishRegistry

/-! ## The bounded concurrent mapper, modelled from the spec

Modelled from the spec: `nAtATime` lives in `src/util/util.ts`, which is not
under `src/`.  Spec §4.1: a shared cursor starts at 0; exactly
`min L M` workers are launched; each worker repeatedly atomically claims the
next unclaimed index (fetch-and-increment), stops if none remains, otherwise
invokes the transform, awaits completion, and stores the result at that
index.  A schedule action either lets an idle worker claim (and start the
transform on) the next index, or lets one in-flight transform complete.
A transform that rejects makes the whole operation reject; sibling behaviour
on failure is implementation-defined, so the failing worker simply retires.
The progress-reporting hook is purely cosmetic (spec §4.1) and is omitted.
-/

/-- A scheduler action: an idle worker claims the next index (starting its
transform), or the `k`-th in-flight transform completes. -/
inductive MAction where
  | claim : MAction
  | complete : Nat → MAction
deriving DecidableEq

/-- State of the bounded concurrent mapper machine. `pending` holds the
indices whose transforms are in flight, in claim order; `slots` is the
output collection; `log` records completions (index, value) in completion
order; `failed` holds the first rejection, if any; `workers` is the fixed
number of launched workers, `min L M`. -/
structure MState (β ε : Type) where
  cursor : Nat
  idle : Nat
  pending : List Nat
  finishedW : Nat
  slots : List (Option β)
  log : List (Nat × β)
  failed : Option ε
  workers : Nat
deriving DecidableEq

/-- One machine step, deterministic once the action is fixed. -/
def step {α β ε : Type} (f : α → Except ε β) (xs : List α) (s : MState β ε) :
    MAction → MState β ε
  | .claim =>
    if s.idle = 0 then s
    else if s.cursor < xs.length then
      { s with idle := s.idle - 1, pending := s.pending ++ [s.cursor],
               cursor := s.cursor + 1 }
    else
      { s with idle := s.idle - 1, finishedW := s.finishedW + 1 }
  | .complete k =>
    match s.pending.get? k with
    | none => s
    | some i =>
      match xs.get? i with
      | none => s
      | some a =>
        match f a with
        | .ok b =>
          { s with idle := s.idle + 1, pending := s.pending.eraseIdx k,
                   slots := s.slots.set i (some b), log := s.log ++ [(i, b)] }
        | .error e =>
          { s with finishedW := s.finishedW + 1, pending := s.pending.eraseIdx k,
                   failed := match s.failed with
                             | some e0 => some e0
                             | none => some e }

/-- Initial machine state: `min L M` idle workers, empty output. -/
def initState {α β ε : Type} (L : Nat) (xs : List α) : MState β ε :=
  { cursor := 0, idle := min L xs.length, pending := [], finishedW := 0,
    slots := List.replicate xs.length none, log := [], failed := none,
    workers := min L xs.length }

/-- Run the machine from a state through a schedule. -/
def runFrom {α β ε : Type} (f : α → Except ε β) (xs : List α)
    (s : MState β ε) (sched : List MAction) : MState β ε :=
  sched.foldl (step f xs) s

/-- The bounded concurrent mapper: run from the initial state under the
given schedule (interleaving). -/
def nAtATime {α β ε : Type} (L : Nat) (xs : List α) (f : α → Except ε β)
    (sched : List MAction) : MState β ε :=
  runFrom f xs (initState L xs) sched

/-- A run has completed successfully when every worker has retired and no
transform has rejected. -/
def MState.successB {β ε : Type} (s : MState β ε) : Bool :=
  s.finishedW == s.workers && s.failed.isNone

/-! ## Registry generation, translated from src/publish-registry.ts -/

/-- A typings package descriptor; the two fields `generateRegistry` uses. -/
structure TypingsData where
  name : String
  fullEscapedNpmName : String
deriving DecidableEq

/-- The slice of the fetched registry JSON that `getVersions` reads: the
`dist-tags` object, as an ordered association list. -/
structure NpmInfo where
  distTags : List (String × String)
deriving DecidableEq

/-- `Versions` from the source: a partial map from version tag to version
string, as an ordered association list. -/
abbrev Versions := List (String × String)

/-- Translation of `pick` (publish-registry.ts lines 114-122): iterate the
object's own keys, keeping those contained in `keys`. -/
def pick (obj : List (String × String)) (keys : List String) :
    List (String × String) :=
  obj.filter (fun kv => keys.contains kv.1)

/-- Translation of `getVersions` (lines 107-112).  `npmReg` stands for the
`npmRegistry` constant of lib/settings and `allVersionTags` for
`TypeScriptVersion.allVersionTags` of lib/packages, both outside src/ and
hence parameters (the spec calls the latter "a fixed, ordered set of
recognized version-tag strings"). -/
def getVersions (npmReg : String) (fetch : String → Except ε NpmInfo)
    (allVersionTags : List String) (escapedPackageName : String) :
    Except ε Versions :=
  (fetch (npmReg ++ escapedPackageName)).map
    (fun info => pick info.distTags allVersionTags)

/-- The transform `addEntry` runs for one typing (lines 101-104): fetch the
versions for `fullEscapedNpmName` and record them under `name`.  The entry
insertion itself is replayed from the machine's completion log. -/
def registryEntry (npmReg : String) (fetch : String → Except ε NpmInfo)
    (allVersionTags : List String) (typing : TypingsData) :
    Except ε (String × Versions) :=
  (getVersions npmReg fetch allVersionTags typing.fullEscapedNpmName).map
    (fun v => (typing.name, v))

/-- JavaScript object assignment `entries[key] = v`: overwrite in place if
the key is present, append otherwise. -/
def setEntry : List (String × Versions) → String → Versions →
    List (String × Versions)
  | [], k, v => [(k, v)]
  | (k', v') :: rest, k, v =>
    if k' = k then (k, v) :: rest else (k', v') :: setEntry rest k v

/-- The generated index object (lines 88-94), an ordered association list of
entries. -/
structure Registry where
  entries : List (String × Versions)
deriving DecidableEq

/-- Replay the `entries[typing.name] = versions` assignments in completion
order. -/
def entriesOfLog (log : List (Nat × (String × Versions))) :
    List (String × Versions) :=
  log.foldl (fun es ib => setEntry es ib.2.1 ib.2.2) []

/-- The machine run inside `generateRegistry` (line 98): `nAtATime` with the
fixed concurrency limit 25 over the typings. -/
def generateRegistryRun (npmReg : String) (fetch : String → Except ε NpmInfo)
    (allVersionTags : List String) (typings : List TypingsData)
    (sched : List MAction) : MState (String × Versions) ε :=
  nAtATime 25 typings (registryEntry npmReg fetch allVersionTags) sched

/-- Translation of `generateRegistry` (lines 96-105): run the bounded mapper
and return `{ entries }`; `none` when the run did not complete
successfully. -/
def generateRegistry (npmReg : String) (fetch : String → Except ε NpmInfo)
    (allVersionTags : List String) (typings : List TypingsData)
    (sched : List MAction) : Option Registry :=
  let s := generateRegistryRun npmReg fetch allVersionTags typings sched
  if s.successB then some ⟨entriesOfLog s.log⟩ else none

/-- First-match lookup in an entries object (its keys are unique by
construction of `setEntry`). -/
def lookupEntries : List (String × Versions) → String → Option Versions
  | [], _ => none
  | (k', v) :: rest, k => if k' = k then some v else lookupEntries rest k

/-! ## Effect-trace embedding of main (publish-registry.ts lines 13-86)

Every externally visible effect of a run is recorded as an `Event`; the
external collaborators (spec §6) are an `Env` of outcome-valued stubs.  The
`await` chain of the source is sequential, so the embedding threads events
and the in-memory log lines explicitly and stops at the first error.
-/

/-- The `repository` field of the generated manifest. -/
structure RepoInfo where
  type : String
  url : String
deriving DecidableEq

/-- The package manifest built by `generatePackageJson` (lines 67-86). -/
structure PackageJson where
  name : String
  version : String
  description : String
  repository : RepoInfo
  keywords : List String
  author : String
  license : String
deriving DecidableEq

/-- Line 13. -/
def packageName : String := "types-registry"

/-- Modelled from the spec: `outputPath` comes from lib/settings, outside
src/; its concrete value is immaterial, it is only ever used through
`joinPaths`. -/
def outputPath : String := "output"

/-- Modelled from the spec: `joinPaths` of src/util/util.ts, outside src/;
plain path concatenation. -/
def joinPaths (a b : String) : String := a ++ "/" ++ b

/-- Line 14. -/
def registryOutputPath : String := joinPaths outputPath packageName

/-- Lines 15-17. -/
def readme : String :=
  "This package contains a listing of all packages published to the @types scope on NPM.\nGenerated by [types-publisher](https://github.com/Microsoft/types-publisher)."

/-- Translation of `generatePackageJson` (lines 67-86). -/
def generatePackageJson (patch : Int) : PackageJson :=
  { name := packageName
    version := "0.1." ++ toString patch
    description := "A registry of TypeScript declaration file packages published within the @types scope."
    repository :=
      { type := "git"
        url := "https://github.com/Microsoft/types-publisher.git" }
    keywords := ["TypeScript", "declaration", "files", "types", "packages"]
    author := "Microsoft Corp."
    license := "Apache-2.0" }

/-- Contents written by `writeOutputFile`. -/
inductive FileContent where
  | packageJson : PackageJson → FileContent
  | indexJson : Registry → FileContent
  | readme : String → FileContent
deriving DecidableEq

/-- Externally visible effects of a run, in order. `published` carries the
directory, the manifest version and the dry flag passed to the client. -/
inductive Event where
  | readAdditionsEv : Event
  | clearedOutput : String → Event
  | fetched : String → Event
  | wroteFile : String → FileContent → Event
  | published : String → String → Bool → Event
  | wroteLog : String → List String → Event
deriving DecidableEq

/-- A run error: an external collaborator failed, or the supplied machine
schedule did not drive the mapper to completion (a modelling artifact: the
real runtime always completes or rejects). -/
inductive Err (ε : Type) where
  | external : ε → Err ε
  | incompleteSchedule : Err ε
deriving DecidableEq

/-- Outcomes of the external collaborators of spec §6, plus the mapper
schedule.  All are modelled from the spec: their implementations live
outside src/. -/
structure Env (ε : Type) where
  npmRegistry : String
  allVersionTags : List String
  readAdditions : Except ε (List String)
  readTypings : Except ε (List TypingsData)
  fetchLastPatchNumber : Except ε Int
  fetch : String → Except ε NpmInfo
  clearOutput : Except ε (List String)
  writeJson : String → Except ε Unit
  clientCreate : Except ε Unit
  publishResult : Except ε Unit
  writeLogResult : Except ε Unit
  sched : List MAction

/-- The fetch events a mapper run performed: one per typing on completion;
on failure, one per completed item (in-flight fetches at rejection time are
abstracted away). -/
def fetchEvents (npmReg : String) (typings : List TypingsData)
    (s : MState (String × Versions) ε) : List Event :=
  if s.successB then
    typings.map (fun t => Event.fetched (npmReg ++ t.fullEscapedNpmName))
  else
    s.log.filterMap
      (fun ib => (typings.get? ib.1).map
        (fun t => Event.fetched (npmReg ++ t.fullEscapedNpmName)))

/-- Translation of `generate` (lines 51-60): clear the output path, then
write package.json, index.json (from `generateRegistry`) and README.md in
order; the first failing step aborts.  Returns the updated log lines. -/
def generate (env : Env ε) (typings : List TypingsData) (pj : PackageJson)
    (lines : List String) : List Event × Except (Err ε) (List String) :=
  match env.clearOutput with
  | .error e => ([Event.clearedOutput registryOutputPath], .error (.external e))
  | .ok clearLines =>
    let lines1 := lines ++ clearLines
    let pjPath := joinPaths registryOutputPath "package.json"
    let evs1 := [Event.clearedOutput registryOutputPath,
                 Event.wroteFile pjPath (.packageJson pj)]
    match env.writeJson pjPath with
    | .error e => (evs1, .error (.external e))
    | .ok _ =>
      let s := generateRegistryRun env.npmRegistry env.fetch env.allVersionTags
                 typings env.sched
      let evs2 := evs1 ++ fetchEvents env.npmRegistry typings s
      if s.successB then
        let idxPath := joinPaths registryOutputPath "index.json"
        let evs3 := evs2 ++ [Event.wroteFile idxPath (.indexJson ⟨entriesOfLog s.log⟩)]
        match env.writeJson idxPath with
        | .error e => (evs3, .error (.external e))
        | .ok _ =>
          let rmPath := joinPaths registryOutputPath "README.md"
          let evs4 := evs3 ++ [Event.wroteFile rmPath (.readme readme)]
          match env.writeJson rmPath with
          | .error e => (evs4, .error (.external e))
          | .ok _ => (evs4, .ok lines1)
      else
        match s.failed with
        | some e => (evs2, .error (.external e))
        | none => (evs2, .error .incompleteSchedule)

/-- Translation of `publish` (lines 62-65): create the npm client, then call
its publish method on the output directory with the manifest and dry flag. -/
def publish (env : Env ε) (pj : PackageJson) (dry : Bool) :
    List Event × Except (Err ε) Unit :=
  match env.clientCreate with
  | .error e => ([], .error (.external e))
  | .ok _ =>
    ([Event.published registryOutputPath pj.version dry],
     match env.publishResult with
     | .error e => .error (.external e)
     | .ok _ => .ok ())

/-- Translation of `generateAndPublishRegistry` (lines 40-49). -/
def generateAndPublishRegistry (env : Env ε) (lines : List String)
    (dry : Bool) : List Event × Except (Err ε) (List String) :=
  match env.readTypings with
  | .error e => ([], .error (.external e))
  | .ok typings =>
    match env.fetchLastPatchNumber with
    | .error e => ([], .error (.external e))
    | .ok last =>
      let pj := generatePackageJson (last + 1)
      match generate env typings pj lines with
      | (gevs, .error e) => (gevs, .error e)
      | (gevs, .ok lines2) =>
        match publish env pj dry with
        | (pevs, .error e) => (gevs ++ pevs, .error e)
        | (pevs, .ok _) => (gevs ++ pevs, .ok lines2)

/-- `JSON.stringify` of an array of strings, as interpolated into the log
message on line 31. -/
def jsonStringifyStrings (l : List String) : String :=
  "[" ++ String.intercalate "," (l.map (fun s => "\"" ++ s ++ "\"")) ++ "]"

/-- Translation of `main` (lines 24-38): read the additions; if any exist,
generate and publish, otherwise only log; finally write the run log. -/
def main (env : Env ε) (dry : Bool) : List Event × Except (Err ε) Unit :=
  let lines0 := ["=== Publishing types-registry ==="]
  match env.readAdditions with
  | .error e => ([Event.readAdditionsEv], .error (.external e))
  | .ok added =>
    if added.length ≠ 0 then
      let lines1 := lines0 ++
        ["New packages have been added: " ++ jsonStringifyStrings added ++
         ", so publishing a new registry"]
      match generateAndPublishRegistry env lines1 dry with
      | (gevs, .error e) => (Event.readAdditionsEv :: gevs, .error e)
      | (gevs, .ok lines2) =>
        (Event.readAdditionsEv :: gevs ++ [Event.wroteLog "publish-registry.md" lines2],
         match env.writeLogResult with
         | .error e => .error (.external e)
         | .ok _ => .ok ())
    else
      let lines1 := lines0 ++
        ["No new packages published, so no need to publish new registry."]
      ([Event.readAdditionsEv, Event.wroteLog "publish-registry.md" lines1],
       match env.writeLogResult with
       | .error e => .error (.external e)
       | .ok _ => .ok ())

/-- Claim and complete one item at a time, `k` times. -/
def seqSched : Nat → List MAction
  | 0 => []
  | k + 1 => seqSched k ++ [MAction.claim, MAction.complete 0]

/-- The sequential schedule over `M` items followed by `W` retiring claims. -/
def fullSched (M W : Nat) : List MAction :=
  seqSched M ++ List.replicate W MAction.claim

/-! ## Concrete instances used by the witnesses -/

/-- A transform that always succeeds, for exercising the mapper. -/
def exF : Nat → Except Unit Nat := fun n => Except.ok (n + 1)

/-- The two-package example of spec §8. -/
def exTypings : List TypingsData := [⟨"a", "a"⟩, ⟨"b", "b__types"⟩]

/-- The registry fetch stub of spec §8. -/
def exFetch : String → Except String NpmInfo := fun u =>
  if u = "npm:a" then
    .ok ⟨[("latest", "1.0.0"), ("ts2.8", "0.9.0"), ("bogus", "x")]⟩
  else if u = "npm:b__types" then
    .ok ⟨[("latest", "2.0.0")]⟩
  else
    .error "404"

/-- The version-tag catalog of spec §8. -/
def exTags : List String := ["latest", "ts2.8"]

/-- A fetch stub that always fails. -/
def exBadFetch : String → Except String NpmInfo := fun _ => .error "boom"

/-- A fully successful environment with one addition. -/
def exEnv : Env String :=
  { npmRegistry := "npm:"
    allVersionTags := exTags
    readAdditions := .ok ["a"]
    readTypings := .ok exTypings
    fetchLastPatchNumber := .ok 41
    fetch := exFetch
    clearOutput := .ok ["Clearing output"]
    writeJson := fun _ => .ok ()
    clientCreate := .ok ()
    publishResult := .ok ()
    writeLogResult := .ok ()
    sched := fullSched 2 (min 25 2) }

/-- The same environment with no additions. -/
def exEnvEmpty : Env String := { exEnv with readAdditions := .ok [] }

/-- Events that generation (as opposed to publishing or logging) emits. -/
def isGenEv : Event → Bool
  | .clearedOutput _ => true
  | .wroteFile _ _ => true
  | .fetched _ => true
  | _ => false

/-- Force the dry flag of publish events to `true`; other events unchanged. -/
def setDryEv : Event → Event
  | .published p v _ => .published p v true
  | ev => ev

/-! ## Machine invariant -/

/-- Every member of a list is the element at the erased position or survives
the erasure. -/
theorem mem_eraseIdx_or_eq {l : List Nat} {k i j : Nat}
    (hk : l.get? k = some i) (hj : j ∈ l) : j = i ∨ j ∈ l.eraseIdx k := by
  induction l generalizing k with
  | nil => cases hj
  | cons x rest ih =>
    cases k with
    | zero =>
      simp only [List.get?] at hk
      cases hk
      rcases List.mem_cons.mp hj with rfl | hj
      · exact Or.inl rfl
      · exact Or.inr (by simpa [List.eraseIdx] using hj)
    | succ k =>
      simp only [List.get?] at hk
      rcases List.mem_cons.mp hj with rfl | hj
      · right; simp [List.eraseIdx]
      · rcases ih hk hj with h | h
        · exact Or.inl h
        · right; simp [List.eraseIdx, h]

/-- In a duplicate-free list, the element at position `k` does not survive
erasing position `k`. -/
theorem not_mem_eraseIdx_self {l : List Nat} {k i : Nat}
    (hnd : l.Nodup) (hk : l.get? k = some i) : i ∉ l.eraseIdx k := by
  induction l generalizing k with
  | nil => simp [List.eraseIdx]
  | cons x rest ih =>
    cases k with
    | zero =>
      simp only [List.get?] at hk
      cases hk
      simpa [List.eraseIdx] using (List.nodup_cons.mp hnd).1
    | succ k =>
      simp only [List.get?] at hk
      have hx : x ∉ rest := (List.nodup_cons.mp hnd).1
      have hir : i ∈ rest := List.get?_mem hk
      intro hmem
      simp only [List.eraseIdx, List.mem_cons] at hmem
      rcases hmem with rfl | hmem
      · exact hx hir
      · exact ih (List.nodup_cons.mp hnd).2 hk hmem

/-- The state invariant of the bounded mapper machine, preserved by every
step from the initial state. -/
structure Inv {α β ε : Type} (f : α → Except ε β) (xs : List α) (L : Nat)
    (s : MState β ε) : Prop where
  hworkers : s.workers = min L xs.length
  hsum : s.idle + s.pending.length + s.finishedW = s.workers
  hcur : s.cursor ≤ xs.length
  hpend_lt : ∀ i ∈ s.pending, i < s.cursor
  hpend_nd : s.pending.Nodup
  hslots_len : s.slots.length = xs.length
  hdone : ∀ i, i < s.cursor → i ∉ s.pending →
    ∃ a, xs.get? i = some a ∧
      ((∃ b, f a = .ok b ∧ s.slots.get? i = some (some b)) ∨
       ((∃ e, f a = .error e) ∧ s.failed.isSome ∧ s.slots.get? i = some none))
  hnot : ∀ i, i < xs.length → (s.cursor ≤ i ∨ i ∈ s.pending) →
    s.slots.get? i = some none
  hfin : s.failed = none → s.finishedW ≠ 0 → s.cursor = xs.length
  hlog : ∀ i b, (i, b) ∈ s.log ↔
    (i < s.cursor ∧ i ∉ s.pending ∧ ∃ a, xs.get? i = some a ∧ f a = .ok b)
  hlognd : (s.log.map Prod.fst).Nodup
  herr : ∀ e, s.failed = some e → ∃ a ∈ xs, f a = .error e

theorem inv_init {α β ε : Type} (f : α → Except ε β) (xs : List α) (L : Nat) :
    Inv f xs L (initState L xs : MState β ε) := by
  refine ⟨rfl, by simp [initState], by simp [initState], ?_, ?_, ?_, ?_, ?_, ?_, ?_, ?_, ?_⟩
  · intro i hi; simp [initState] at hi
  · simp [initState]
  · simp [initState]
  · intro i hi; simp [initState] at hi
  · intro i hi _
    simp [initState, List.get?_eq_getElem?, hi]
  · simp [initState]
  · intro i b; simp [initState]
  · simp [initState]
  · intro e he; simp [initState] at he

theorem get?_set_self {γ : Type} (l : List γ) (n : Nat) (a : γ)
    (h : n < l.length) : (l.set n a).get? n = some a := by
  simp [List.get?_eq_getElem?, List.getElem?_set_eq_of_lt, h]

theorem get?_set_of_ne {γ : Type} (l : List γ) {m n : Nat} (a : γ)
    (h : m ≠ n) : (l.set m a).get? n = l.get? n := by
  simp [List.get?_eq_getElem?, List.getElem?_set_ne h]

theorem inv_step {α β ε : Type} {f : α → Except ε β} {xs : List α} {L : Nat}
    {s : MState β ε} (hs : Inv f xs L s) (act : MAction) :
    Inv f xs L (step f xs s act) := by
  cases act with
  | claim =>
    by_cases h0 : s.idle = 0
    · simpa only [step, if_pos h0] using hs
    · by_cases hc : s.cursor < xs.length
      · simp only [step, if_neg h0, if_pos hc]
        refine ⟨hs.hworkers, ?_, ?_, ?_, ?_, hs.hslots_len, ?_, ?_, ?_, ?_, hs.hlognd, hs.herr⟩
        · dsimp only
          have := hs.hsum
          simp only [List.length_append, List.length_singleton]
          omega
        · dsimp only
          omega
        · dsimp only
          intro i hi
          rcases List.mem_append.mp hi with hi | hi
          · exact Nat.lt_succ_of_lt (hs.hpend_lt i hi)
          · simp only [List.mem_singleton] at hi
            omega
        · dsimp only
          have hcm : s.cursor ∉ s.pending := fun h => absurd (hs.hpend_lt _ h) (lt_irrefl _)
          simp [List.nodup_append, hs.hpend_nd, hcm]
        · dsimp only
          intro i hi hni
          simp only [List.mem_append, List.mem_singleton, not_or] at hni
          exact hs.hdone i (by omega) hni.1
        · dsimp only
          intro i hiM hcond
          refine hs.hnot i hiM ?_
          rcases hcond with h | h
          · exact Or.inl (by omega)
          · rcases List.mem_append.mp h with h | h
            · exact Or.inr h
            · simp only [List.mem_singleton] at h
              omega
        · dsimp only
          intro hfail hfw
          exact absurd (hs.hfin hfail hfw) (by omega)
        · dsimp only
          intro i b
          rw [hs.hlog i b]
          simp only [List.mem_append, List.mem_singleton, not_or]
          constructor
          · rintro ⟨h1, h2, h3⟩
            exact ⟨by omega, ⟨h2, by omega⟩, h3⟩
          · rintro ⟨h1, ⟨h2, h2h⟩, h3⟩
            exact ⟨by omega, h2, h3⟩
      · simp only [step, if_neg h0, if_neg hc]
        refine ⟨hs.hworkers, ?_, hs.hcur, hs.hpend_lt, hs.hpend_nd, hs.hslots_len,
          hs.hdone, hs.hnot, ?_, hs.hlog, hs.hlognd, hs.herr⟩
        · dsimp only
          have := hs.hsum
          omega
        · dsimp only
          intro _ _
          have := hs.hcur
          omega
  | complete k =>
    rcases hp : s.pending.get? k with _ | i
    · simpa only [step, hp] using hs
    · have hiP : i ∈ s.pending := List.get?_mem hp
      have hic : i < s.cursor := hs.hpend_lt i hiP
      have hiM : i < xs.length := lt_of_lt_of_le hic hs.hcur
      have hkl : k < s.pending.length := by
        rcases List.get?_eq_some.mp hp with ⟨h, _⟩
        exact h
      have hier : i ∉ s.pending.eraseIdx k := not_mem_eraseIdx_self hs.hpend_nd hp
      have herasemem : ∀ j, j ∈ s.pending.eraseIdx k → j ∈ s.pending :=
        fun j hj => (List.eraseIdx_sublist s.pending k).mem hj
      have hlen_erase : (s.pending.eraseIdx k).length = s.pending.length - 1 := by
        rw [List.length_eraseIdx]
        simp [hkl]
      rcases hx : xs.get? i with _ | a
      · have := List.get?_eq_none.mp hx
        omega
      · cases hf : f a with
        | ok b =>
          -- the transform succeeded: store the result, log the completion
          simp only [step, hp, hx, hf]
          refine ⟨hs.hworkers, ?_, hs.hcur, ?_, ?_, ?_, ?_, ?_, hs.hfin, ?_, ?_, hs.herr⟩
          · dsimp only
            have := hs.hsum
            rw [hlen_erase]
            omega
          · dsimp only
            exact fun j hj => hs.hpend_lt j (herasemem j hj)
          · dsimp only
            exact (List.eraseIdx_sublist s.pending k).nodup hs.hpend_nd
          · dsimp only
            rw [List.length_set]
            exact hs.hslots_len
          · dsimp only
            intro j hj hjn
            by_cases hji : j = i
            · subst hji
              exact ⟨a, hx, Or.inl ⟨b, hf,
                get?_set_self _ _ _ (by rw [hs.hslots_len]; exact hiM)⟩⟩
            · have hjp : j ∉ s.pending := by
                intro hmem
                rcases mem_eraseIdx_or_eq hp hmem with h | h
                · exact hji h
                · exact hjn h
              rcases hs.hdone j hj hjp with ⟨a1, hx1, hcase⟩
              refine ⟨a1, hx1, ?_⟩
              rcases hcase with ⟨b1, hb1, hsl⟩ | ⟨he1, hfs, hsl⟩
              · exact Or.inl ⟨b1, hb1, by rw [get?_set_of_ne _ _ (fun h => hji h.symm), hsl]⟩
              · exact Or.inr ⟨he1, hfs, by rw [get?_set_of_ne _ _ (fun h => hji h.symm), hsl]⟩
          · dsimp only
            intro j hjM hcond
            have hji : j ≠ i := by
              rintro rfl
              rcases hcond with h | h
              · omega
              · exact hier h
            rw [get?_set_of_ne _ _ (fun h => hji h.symm)]
            refine hs.hnot j hjM ?_
            rcases hcond with h | h
            · exact Or.inl h
            · exact Or.inr (herasemem j h)
          · dsimp only
            intro j c
            simp only [List.mem_append, List.mem_singleton, Prod.mk.injEq]
            constructor
            · rintro (hmem | ⟨rfl, rfl⟩)
              · rcases (hs.hlog j c).mp hmem with ⟨h1, h2, h3⟩
                refine ⟨h1, ?_, h3⟩
                intro hm
                exact h2 (herasemem j hm)
              · exact ⟨hic, hier, a, hx, hf⟩
            · rintro ⟨h1, h2, a1, hx1, hok⟩
              by_cases hji : j = i
              · subst hji
                rw [hx] at hx1
                cases hx1
                rw [hf] at hok
                cases hok
                exact Or.inr ⟨rfl, rfl⟩
              · have hjp : j ∉ s.pending := by
                  intro hmem
                  rcases mem_eraseIdx_or_eq hp hmem with h | h
                  · exact hji h
                  · exact h2 h
                exact Or.inl ((hs.hlog j c).mpr ⟨h1, hjp, a1, hx1, hok⟩)
          · dsimp only
            simp only [List.map_append, List.map_cons, List.map_nil]
            rw [List.nodup_append]
            refine ⟨hs.hlognd, List.nodup_singleton i, ?_⟩
            intro j hj
            simp only [List.mem_singleton]
            rintro rfl
            rcases List.mem_map.mp hj with ⟨⟨j1, c⟩, hmem, hfst⟩
            simp only at hfst
            subst hfst
            exact ((hs.hlog j1 c).mp hmem).2.1 hiP
        | error e =>
          -- the transform rejected: record the failure, retire the worker
          simp only [step, hp, hx, hf]
          refine ⟨hs.hworkers, ?_, hs.hcur, ?_, ?_, hs.hslots_len, ?_, ?_, ?_, ?_, hs.hlognd, ?_⟩
          · dsimp only
            have := hs.hsum
            rw [hlen_erase]
            omega
          · dsimp only
            exact fun j hj => hs.hpend_lt j (herasemem j hj)
          · dsimp only
            exact (List.eraseIdx_sublist s.pending k).nodup hs.hpend_nd
          · dsimp only
            intro j hj hjn
            by_cases hji : j = i
            · subst hji
              refine ⟨a, hx, Or.inr ⟨⟨e, hf⟩, ?_, hs.hnot j hiM (Or.inr hiP)⟩⟩
              rcases s.failed with _ | e0 <;> simp
            · have hjp : j ∉ s.pending := by
                intro hmem
                rcases mem_eraseIdx_or_eq hp hmem with h | h
                · exact hji h
                · exact hjn h
              rcases hs.hdone j hj hjp with ⟨a1, hx1, hcase⟩
              refine ⟨a1, hx1, ?_⟩
              rcases hcase with ⟨b1, hb1, hsl⟩ | ⟨he1, hfs0, hsl⟩
              · exact Or.inl ⟨b1, hb1, hsl⟩
              · refine Or.inr ⟨he1, ?_, hsl⟩
                rcases s.failed with _ | e0 <;> simp
          · dsimp only
            intro j hjM hcond
            refine hs.hnot j hjM ?_
            rcases hcond with h | h
            · exact Or.inl h
            · exact Or.inr (herasemem j h)
          · dsimp only
            intro hfail
            exfalso
            rcases hfl : s.failed with _ | e0 <;> simp [hfl] at hfail
          · dsimp only
            intro j c
            rw [hs.hlog j c]
            constructor
            · rintro ⟨h1, h2, h3⟩
              refine ⟨h1, ?_, h3⟩
              intro hm
              exact h2 (herasemem j hm)
            · rintro ⟨h1, h2, a1, hx1, hok⟩
              by_cases hji : j = i
              · subst hji
                rw [hx] at hx1
                cases hx1
                rw [hf] at hok
                simp at hok
              · have hjp : j ∉ s.pending := by
                  intro hmem
                  rcases mem_eraseIdx_or_eq hp hmem with h | h
                  · exact hji h
                  · exact h2 h
                exact ⟨h1, hjp, a1, hx1, hok⟩
          · dsimp only
            intro e1 he1
            rcases hfl : s.failed with _ | e0
            · simp only [hfl, Option.some.injEq] at he1
              subst he1
              exact ⟨a, List.get?_mem hx, hf⟩
            · simp only [hfl, Option.some.injEq] at he1
              subst he1
              exact hs.herr _ hfl

theorem inv_runFrom {α β ε : Type} {f : α → Except ε β} {xs : List α} {L : Nat}
    {s : MState β ε} (hs : Inv f xs L s) (sched : List MAction) :
    Inv f xs L (runFrom f xs s sched) := by
  induction sched generalizing s with
  | nil => exact hs
  | cons act rest ih => exact ih (inv_step hs act)

theorem inv_nAtATime {α β ε : Type} (f : α → Except ε β) (xs : List α)
    (L : Nat) (sched : List MAction) : Inv f xs L (nAtATime L xs f sched) :=
  inv_runFrom (inv_init f xs L) sched

/-- Consequences of a successful run: the cursor reached the end, nothing is
pending, every item's transform succeeded and its result sits in its slot,
and the completion log holds exactly one entry per index. -/
theorem success_state {α β ε : Type} {f : α → Except ε β} {xs : List α}
    {L : Nat} {s : MState β ε} (hs : Inv f xs L s) (hL : 1 ≤ L)
    (hsucc : s.successB = true) :
    s.pending = [] ∧ s.cursor = xs.length ∧ s.failed = none ∧
    (∀ i a, xs.get? i = some a →
      ∃ b, f a = .ok b ∧ s.slots.get? i = some (some b)) ∧
    (∀ i b, (i, b) ∈ s.log ↔ ∃ a, xs.get? i = some a ∧ f a = .ok b) := by
  have hfw : s.finishedW = s.workers := by
    simp only [MState.successB, Bool.and_eq_true, beq_iff_eq] at hsucc
    exact hsucc.1
  have hfail : s.failed = none := by
    simp only [MState.successB, Bool.and_eq_true, Option.isNone_iff_eq_none] at hsucc
    exact hsucc.2
  have hpend : s.pending = [] := by
    have := hs.hsum
    rw [hfw] at this
    have hlen : s.pending.length = 0 := by omega
    exact List.length_eq_zero.mp hlen
  have hcur : s.cursor = xs.length := by
    rcases Nat.eq_zero_or_pos xs.length with hM | hM
    · have := hs.hcur
      omega
    · have hW : s.workers ≠ 0 := by
        rw [hs.hworkers]
        omega
      exact hs.hfin hfail (by omega)
  have hall : ∀ i a, xs.get? i = some a →
      ∃ b, f a = .ok b ∧ s.slots.get? i = some (some b) := by
    intro i a ha
    have hiM : i < xs.length := by
      rcases List.get?_eq_some.mp ha with ⟨h, _⟩
      exact h
    rcases hs.hdone i (by omega) (by simp [hpend]) with ⟨a1, hx1, hcase⟩
    rw [ha] at hx1
    cases hx1
    rcases hcase with ⟨b, hb, hsl⟩ | ⟨_, hfs, _⟩
    · exact ⟨b, hb, hsl⟩
    · rw [hfail] at hfs
      cases hfs
  refine ⟨hpend, hcur, hfail, hall, ?_⟩
  intro i b
  rw [hs.hlog i b]
  constructor
  · rintro ⟨_, _, h⟩
    exact h
  · rintro ⟨a, ha, hok⟩
    have hiM : i < xs.length := by
      rcases List.get?_eq_some.mp ha with ⟨h, _⟩
      exact h
    exact ⟨by omega, by simp [hpend], a, ha, hok⟩

/-! ## The canonical (sequential) schedule

In the real runtime the workers always make progress, so the mapper
terminates whenever every transform settles.  The sequential schedule below
is one witness interleaving: claim an index, let its transform complete,
repeat; finally let every worker observe the exhausted cursor and retire. -/

theorem runFrom_append {α β ε : Type} (f : α → Except ε β) (xs : List α)
    (s : MState β ε) (l1 l2 : List MAction) :
    runFrom f xs s (l1 ++ l2) = runFrom f xs (runFrom f xs s l1) l2 := by
  simp [runFrom, List.foldl_append]

theorem claim_complete_ok {α β ε : Type} {f : α → Except ε β} {xs : List α}
    {s0 : MState β ε} {k W : Nat} {a : α} {b : β}
    (ic : s0.cursor = k) (ii : s0.idle = W) (ip : s0.pending = [])
    (hW : 1 ≤ W) (hk : k < xs.length) (hxk : xs.get? k = some a)
    (hb : f a = .ok b) :
    (runFrom f xs s0 [MAction.claim, MAction.complete 0]).cursor = k + 1 ∧
    (runFrom f xs s0 [MAction.claim, MAction.complete 0]).idle = s0.idle ∧
    (runFrom f xs s0 [MAction.claim, MAction.complete 0]).pending = [] ∧
    (runFrom f xs s0 [MAction.claim, MAction.complete 0]).finishedW = s0.finishedW ∧
    (runFrom f xs s0 [MAction.claim, MAction.complete 0]).failed = s0.failed := by
  have hidle0 : ¬ s0.idle = 0 := by omega
  have hcur : s0.cursor < xs.length := by omega
  have hrun : runFrom f xs s0 [MAction.claim, MAction.complete 0] =
      step f xs (step f xs s0 MAction.claim) (MAction.complete 0) := rfl
  have h1 : step f xs s0 MAction.claim =
      { s0 with idle := s0.idle - 1, pending := s0.pending ++ [s0.cursor], cursor := s0.cursor + 1 } := by
    simp only [step, if_neg hidle0, if_pos hcur]
  have hp1 : (s0.pending ++ [s0.cursor]).get? 0 = some k := by
    rw [ip, ic]
    rfl
  rw [hrun, h1]
  simp only [step, hp1, hxk, hb]
  refine ⟨?_, ?_, ?_, ?_, ?_⟩
  · show s0.cursor + 1 = k + 1
    omega
  · show s0.idle - 1 + 1 = s0.idle
    omega
  · show (s0.pending ++ [s0.cursor]).eraseIdx 0 = []
    rw [ip]
    rfl
  · trivial
  · trivial

theorem claim_complete_error {α β ε : Type} {f : α → Except ε β} {xs : List α}
    {s0 : MState β ε} {k W : Nat} {a : α} {e : ε}
    (ic : s0.cursor = k) (ii : s0.idle = W) (ip : s0.pending = [])
    (hW : 1 ≤ W) (hk : k < xs.length) (hxk : xs.get? k = some a)
    (hb : f a = .error e) (hfl : s0.failed = none) :
    (runFrom f xs s0 [MAction.claim, MAction.complete 0]).failed = some e := by
  have hidle0 : ¬ s0.idle = 0 := by omega
  have hcur : s0.cursor < xs.length := by omega
  have hrun : runFrom f xs s0 [MAction.claim, MAction.complete 0] =
      step f xs (step f xs s0 MAction.claim) (MAction.complete 0) := rfl
  have h1 : step f xs s0 MAction.claim =
      { s0 with idle := s0.idle - 1, pending := s0.pending ++ [s0.cursor], cursor := s0.cursor + 1 } := by
    simp only [step, if_neg hidle0, if_pos hcur]
  have hp1 : (s0.pending ++ [s0.cursor]).get? 0 = some k := by
    rw [ip, ic]
    rfl
  rw [hrun, h1]
  simp only [step, hp1, hxk, hb]
  show (match s0.failed with | some e0 => some e0 | none => some e) = some e
  rw [hfl]

theorem seqSched_run {α β ε : Type} (f : α → Except ε β) (xs : List α)
    (L : Nat) (hL : 1 ≤ L) (k : Nat) (hk : k ≤ xs.length)
    (hok : ∀ j a, j < k → xs.get? j = some a → ∃ b, f a = .ok b) :
    (nAtATime L xs f (seqSched k)).cursor = k ∧
    (nAtATime L xs f (seqSched k)).idle = min L xs.length ∧
    (nAtATime L xs f (seqSched k)).pending = [] ∧
    (nAtATime L xs f (seqSched k)).finishedW = 0 ∧
    (nAtATime L xs f (seqSched k)).failed = none := by
  induction k with
  | zero => simp [nAtATime, runFrom, seqSched, initState]
  | succ k ih =>
    obtain ⟨ic, ii, ip, ifw, ifl⟩ :=
      ih (by omega) (fun j a hj ha => hok j a (by omega) ha)
    have hkM : k < xs.length := by omega
    have hW : 1 ≤ min L xs.length := by omega
    rcases hxk : xs.get? k with _ | a
    · have := List.get?_eq_none.mp hxk
      omega
    · obtain ⟨b, hb⟩ := hok k a (by omega) hxk
      have hsplit : nAtATime L xs f (seqSched (k + 1)) =
          runFrom f xs (nAtATime L xs f (seqSched k))
            [MAction.claim, MAction.complete 0] := by
        simp [nAtATime, seqSched, runFrom_append]
      obtain ⟨c1, c2, c3, c4, c5⟩ := claim_complete_ok ic ii ip hW hkM hxk hb
      rw [hsplit]
      exact ⟨by rw [c1], by rw [c2, ii], c3, by rw [c4, ifw], by rw [c5, ifl]⟩

theorem retire_run {α β ε : Type} (f : α → Except ε β) (xs : List α)
    (w : Nat) (s : MState β ε) (hnc : ¬ s.cursor < xs.length) :
    (runFrom f xs s (List.replicate w MAction.claim)).finishedW =
      s.finishedW + min w s.idle ∧
    (runFrom f xs s (List.replicate w MAction.claim)).failed = s.failed ∧
    (runFrom f xs s (List.replicate w MAction.claim)).workers = s.workers := by
  induction w generalizing s with
  | zero => simp [runFrom]
  | succ w ih =>
    have hrw : runFrom f xs s (List.replicate (w + 1) MAction.claim) =
        runFrom f xs (step f xs s MAction.claim) (List.replicate w MAction.claim) := by
      simp [runFrom, List.replicate_succ]
    by_cases h0 : s.idle = 0
    · have hstep : step f xs s MAction.claim = s := by
        simp only [step, if_pos h0]
      rw [hrw, hstep]
      obtain ⟨r1, r2, r3⟩ := ih s hnc
      exact ⟨by rw [r1, h0]; simp, r2, r3⟩
    · have hstep : step f xs s MAction.claim =
          { s with idle := s.idle - 1, finishedW := s.finishedW + 1 } := by
        simp only [step, if_neg h0, if_neg hnc]
      rw [hrw, hstep]
      obtain ⟨r1, r2, r3⟩ :=
        ih { s with idle := s.idle - 1, finishedW := s.finishedW + 1 } hnc
      refine ⟨?_, r2, r3⟩
      rw [r1]
      show s.finishedW + 1 + min w (s.idle - 1) = s.finishedW + min (w + 1) s.idle
      omega

/-- The sequential schedule completes the run whenever every transform
succeeds. -/
theorem fullSched_success {α β ε : Type} (f : α → Except ε β) (xs : List α)
    (L : Nat) (hL : 1 ≤ L)
    (hok : ∀ j a, xs.get? j = some a → ∃ b, f a = .ok b) :
    (nAtATime L xs f (fullSched xs.length (min L xs.length))).successB = true := by
  obtain ⟨ic, ii, ip, ifw, ifl⟩ :=
    seqSched_run f xs L hL xs.length le_rfl (fun j a _ ha => hok j a ha)
  have hsplit : nAtATime L xs f (fullSched xs.length (min L xs.length)) =
      runFrom f xs (nAtATime L xs f (seqSched xs.length))
        (List.replicate (min L xs.length) MAction.claim) := by
    simp [nAtATime, fullSched, runFrom_append]
  have hnc : ¬ (nAtATime L xs f (seqSched xs.length)).cursor < xs.length := by
    omega
  obtain ⟨r1, r2, r3⟩ := retire_run f xs (min L xs.length) _ hnc
  have hwk : (nAtATime L xs f (seqSched xs.length)).workers = min L xs.length :=
    (inv_nAtATime f xs L (seqSched xs.length)).hworkers
  rw [hsplit]
  simp [MState.successB, r1, r2, r3, ifw, ifl, ii, hwk]

/-- A successful run logged each index exactly once: the first components of
the completion log are a permutation of all input positions. -/
theorem success_log_perm {α β ε : Type} {L : Nat} {xs : List α}
    {f : α → Except ε β} {sched : List MAction} (hL : 1 ≤ L)
    (hsucc : (nAtATime L xs f sched).successB = true) :
    ((nAtATime L xs f sched).log.map Prod.fst).Perm (List.range xs.length) := by
  have hinv := inv_nAtATime f xs L sched
  obtain ⟨_, _, _, hall, hlogiff⟩ := success_state hinv hL hsucc
  refine List.perm_of_nodup_nodup_toFinset_eq hinv.hlognd (List.nodup_range _) ?_
  ext i
  simp only [List.mem_toFinset, List.mem_range]
  constructor
  · intro hmem
    rcases List.mem_map.mp hmem with ⟨⟨j, c⟩, hmem2, hfst⟩
    simp only at hfst
    subst hfst
    rcases (hlogiff _ c).mp hmem2 with ⟨a, ha, _⟩
    rcases List.get?_eq_some.mp ha with ⟨h, _⟩
    exact h
  · intro hi
    rcases hx : xs.get? i with _ | a
    · have := List.get?_eq_none.mp hx
      omega
    · rcases hall i a hx with ⟨b, hb, _⟩
      exact List.mem_map.mpr ⟨(i, b), (hlogiff i b).mpr ⟨a, hx, hb⟩, rfl⟩

/-- If any transform rejects, no schedule completes the run successfully. -/
theorem error_no_success {α β ε : Type} {L : Nat} {xs : List α}
    {f : α → Except ε β} (hL : 1 ≤ L) {j : Nat} {a : α} {e : ε}
    (hx : xs.get? j = some a) (hf : f a = .error e) (sched : List MAction) :
    (nAtATime L xs f sched).successB = false := by
  cases hb : (nAtATime L xs f sched).successB
  · rfl
  · exfalso
    obtain ⟨_, _, _, hall, _⟩ := success_state (inv_nAtATime f xs L sched) hL hb
    rcases hall j a hx with ⟨b, hbb, _⟩
    rw [hf] at hbb
    cases hbb

theorem map_fst_nodup_inj {γ δ : Type} {l : List (γ × δ)}
    (h : (l.map Prod.fst).Nodup) {i : γ} {p q : δ}
    (hp : (i, p) ∈ l) (hq : (i, q) ∈ l) : p = q := by
  induction l with
  | nil => cases hp
  | cons x rest ih =>
    simp only [List.map_cons, List.nodup_cons] at h
    rcases List.mem_cons.mp hp with hpx | hp2
    · rcases List.mem_cons.mp hq with hqx | hq2
      · exact congrArg Prod.snd (hpx.trans hqx.symm)
      · exfalso
        apply h.1
        rw [← hpx]
        exact List.mem_map.mpr ⟨(i, q), hq2, rfl⟩
    · rcases List.mem_cons.mp hq with hqx | hq2
      · exfalso
        apply h.1
        rw [← hqx]
        exact List.mem_map.mpr ⟨(i, p), hp2, rfl⟩
      · exact ih h.2 hp2 hq2

theorem setEntry_append (es : List (String × Versions)) (k : String)
    (v : Versions) (hk : ∀ p ∈ es, p.1 ≠ k) : setEntry es k v = es ++ [(k, v)] := by
  induction es with
  | nil => rfl
  | cons p rest ih =>
    obtain ⟨k1, v1⟩ := p
    have hne : k1 ≠ k := hk (k1, v1) (List.mem_cons_self _ _)
    simp only [setEntry, if_neg hne, List.cons_append]
    rw [ih (fun q hq => hk q (List.mem_cons_of_mem _ hq))]

theorem foldl_setEntry_append (pairs : List (String × Versions)) :
    ∀ es : List (String × Versions), ((es ++ pairs).map Prod.fst).Nodup →
    pairs.foldl (fun a q => setEntry a q.1 q.2) es = es ++ pairs := by
  induction pairs with
  | nil => intro es _; simp
  | cons p ps ih =>
    intro es hnd
    have hk : ∀ q ∈ es, q.1 ≠ p.1 := by
      intro q hq heq
      rw [List.map_append] at hnd
      rcases List.nodup_append.mp hnd with ⟨_, _, hdisj⟩
      refine hdisj (List.mem_map.mpr ⟨q, hq, rfl⟩) ?_
      rw [heq]
      exact List.mem_map.mpr ⟨p, List.mem_cons_self _ _, rfl⟩
    simp only [List.foldl_cons]
    rw [setEntry_append es p.1 p.2 hk]
    have hnd2 : ((es ++ [(p.1, p.2)] ++ ps).map Prod.fst).Nodup := by
      rw [List.append_assoc]
      exact hnd
    rw [ih (es ++ [(p.1, p.2)]) hnd2]
    simp

/-- With pairwise-distinct keys the replayed object is just the list of
logged entries. -/
theorem entriesOfLog_eq_map (log : List (Nat × (String × Versions)))
    (hnd : ((log.map Prod.snd).map Prod.fst).Nodup) :
    entriesOfLog log = log.map Prod.snd := by
  have h1 : entriesOfLog log =
      (log.map Prod.snd).foldl (fun a q => setEntry a q.1 q.2) [] := by
    simp [entriesOfLog, List.foldl_map]
  rw [h1, foldl_setEntry_append (log.map Prod.snd) [] (by simpa using hnd)]
  simp

theorem lookupEntries_of_mem {l : List (String × Versions)}
    (hnd : (l.map Prod.fst).Nodup) {k : String} {v : Versions}
    (hmem : (k, v) ∈ l) : lookupEntries l k = some v := by
  induction l with
  | nil => cases hmem
  | cons p rest ih =>
    simp only [List.map_cons, List.nodup_cons] at hnd
    rcases List.mem_cons.mp hmem with hpx | h2
    · rw [← hpx]
      simp [lookupEntries]
    · have hkm : k ∈ rest.map Prod.fst := List.mem_map.mpr ⟨(k, v), h2, rfl⟩
      have hne : p.1 ≠ k := fun h => hnd.1 (h ▸ hkm)
      obtain ⟨k1, v1⟩ := p
      simp only [lookupEntries, if_neg hne]
      exact ih hnd.2 h2

/-- The per-typing transform succeeds exactly when the fetch does, and then
yields the name paired with the picked tags. -/
theorem registryEntry_ok_iff (npmReg : String)
    (fetch : String → Except ε NpmInfo) (allVersionTags : List String)
    (t : TypingsData) (p : String × Versions) :
    registryEntry npmReg fetch allVersionTags t = .ok p ↔
    ∃ info, fetch (npmReg ++ t.fullEscapedNpmName) = .ok info ∧
      p = (t.name, pick info.distTags allVersionTags) := by
  cases h : fetch (npmReg ++ t.fullEscapedNpmName) <;>
    simp [registryEntry, getVersions, h, Except.map, eq_comm]

/-- The per-typing transform rejects exactly with the fetch's error. -/
theorem registryEntry_error_iff (npmReg : String)
    (fetch : String → Except ε NpmInfo) (allVersionTags : List String)
    (t : TypingsData) (e : ε) :
    registryEntry npmReg fetch allVersionTags t = .error e ↔
    fetch (npmReg ++ t.fullEscapedNpmName) = .error e := by
  cases h : fetch (npmReg ++ t.fullEscapedNpmName) <;>
    simp [registryEntry, getVersions, h, Except.map]

/-! ## Claim theorems for the bounded mapper -/

/-- C2: for every concurrency limit L ≥ 1 and input collection, whatever
order the individual transforms complete in (i.e. for every schedule), a
completed run of the bounded mapper has an output collection of length
exactly M whose i-th slot holds the transform's result on input i; and the
run does complete (witnessed by the sequential schedule) whenever every
transform settles successfully, however L compares to M. -/
theorem nAtATime_maps_in_order {α β ε : Type} (L : Nat) (xs : List α)
    (f : α → Except ε β) (hL : 1 ≤ L) :
    (∀ sched : List MAction, (nAtATime L xs f sched).successB = true →
      (nAtATime L xs f sched).slots.length = xs.length ∧
      ∀ i a, xs.get? i = some a →
        ∃ b, f a = .ok b ∧ (nAtATime L xs f sched).slots.get? i = some (some b)) ∧
    ((∀ j a, xs.get? j = some a → ∃ b, f a = .ok b) →
      (nAtATime L xs f (fullSched xs.length (min L xs.length))).successB = true) := by
  constructor
  · intro sched hsucc
    have hinv := inv_nAtATime f xs L sched
    obtain ⟨_, _, _, hall, _⟩ := success_state hinv hL hsucc
    exact ⟨hinv.hslots_len, hall⟩
  · intro hok
    exact fullSched_success f xs L hL hok

/-- C3: in every state reachable under any schedule, at most L transforms
are in flight; no index is in flight twice, none is both completed and in
flight, none completes twice, and a successful run completes every index
exactly once (the completion log is a permutation of all positions). -/
theorem nAtATime_bounded_in_flight {α β ε : Type} (L : Nat) (xs : List α)
    (f : α → Except ε β) (hL : 1 ≤ L) (hLM : L ≤ xs.length)
    (sched : List MAction) :
    (nAtATime L xs f sched).pending.length ≤ L ∧
    (nAtATime L xs f sched).pending.Nodup ∧
    ((nAtATime L xs f sched).log.map Prod.fst).Nodup ∧
    (∀ i ∈ (nAtATime L xs f sched).pending,
      i ∉ (nAtATime L xs f sched).log.map Prod.fst) ∧
    ((nAtATime L xs f sched).successB = true →
      ((nAtATime L xs f sched).log.map Prod.fst).Perm (List.range xs.length)) := by
  have hinv := inv_nAtATime f xs L sched
  refine ⟨?_, hinv.hpend_nd, hinv.hlognd, ?_, ?_⟩
  · have h1 := hinv.hsum
    have h2 := hinv.hworkers
    omega
  · intro i hip hmem
    rcases List.mem_map.mp hmem with ⟨⟨j, c⟩, hmem2, hfst⟩
    simp only at hfst
    subst hfst
    exact ((hinv.hlog _ c).mp hmem2).2.1 hip
  · intro hsucc
    exact success_log_perm hL hsucc

/-- C10: `generateRegistry` drives the mapper with the hard-wired limit 25,
for every registry location, fetch stub, tag catalog, typings collection and
schedule: exactly `min 25 M` workers are launched and never more than 25
fetch transforms are in flight. -/
theorem generateRegistry_limit_25 {ε : Type} (npmReg : String)
    (fetch : String → Except ε NpmInfo) (allVersionTags : List String)
    (typings : List TypingsData) (sched : List MAction) :
    (generateRegistryRun npmReg fetch allVersionTags typings sched).workers =
      min 25 typings.length ∧
    (generateRegistryRun npmReg fetch allVersionTags typings sched).pending.length ≤ 25 := by
  have hinv := inv_nAtATime (registryEntry npmReg fetch allVersionTags) typings 25 sched
  refine ⟨hinv.hworkers, ?_⟩
  show (nAtATime 25 typings (registryEntry npmReg fetch allVersionTags) sched).pending.length ≤ 25
  have h1 := hinv.hsum
  have h2 := hinv.hworkers
  omega

/-- C1: for every typings collection (with the per-package names distinct,
as they key a registry) and every completion order of the fetches, a
successful `generateRegistry` yields an index with exactly one entry per
typing, keyed by the typing's `name` (not `fullEscapedNpmName`), whose value
is the fetched `dist-tags` object restricted to the recognized version-tag
catalog by `pick` (unrecognized tags dropped). -/
theorem generateRegistry_entries {ε : Type} (npmReg : String)
    (fetch : String → Except ε NpmInfo) (allVersionTags : List String)
    (typings : List TypingsData) (sched : List MAction) (r : Registry)
    (hnd : (typings.map TypingsData.name).Nodup)
    (hr : generateRegistry npmReg fetch allVersionTags typings sched = some r) :
    (r.entries.map Prod.fst).Perm (typings.map TypingsData.name) ∧
    (∀ t ∈ typings, ∃ info, fetch (npmReg ++ t.fullEscapedNpmName) = .ok info ∧
      lookupEntries r.entries t.name =
        some (pick info.distTags allVersionTags)) := by
  simp only [generateRegistry] at hr
  by_cases hs : (generateRegistryRun npmReg fetch allVersionTags typings sched).successB = true
  case neg =>
    rw [if_neg (by simpa using hs)] at hr
    cases hr
  rw [if_pos (by simpa using hs)] at hr
  cases hr
  rw [show generateRegistryRun npmReg fetch allVersionTags typings sched =
    nAtATime 25 typings (registryEntry npmReg fetch allVersionTags) sched from rfl]
  have hinv := inv_nAtATime (registryEntry npmReg fetch allVersionTags) typings 25 sched
  obtain ⟨_, _, _, hall, hlogiff⟩ := success_state hinv (by omega) hs
  have hperm := @success_log_perm TypingsData (String × Versions) ε 25 typings
    (registryEntry npmReg fetch allVersionTags) sched (by omega) hs
  have hname : ∀ ib ∈ (nAtATime 25 typings
      (registryEntry npmReg fetch allVersionTags) sched).log,
      ∃ t, typings.get? ib.1 = some t ∧ ib.2.1 = t.name ∧
        ∃ info, fetch (npmReg ++ t.fullEscapedNpmName) = .ok info ∧
          ib.2 = (t.name, pick info.distTags allVersionTags) := by
    rintro ⟨i, p⟩ hmem
    rcases (hlogiff i p).mp hmem with ⟨t, ht, hok⟩
    rcases (registryEntry_ok_iff npmReg fetch allVersionTags t p).mp hok with
      ⟨info, hinfo, hp⟩
    exact ⟨t, ht, by rw [hp], info, hinfo, hp⟩
  have hlgnd : (nAtATime 25 typings
      (registryEntry npmReg fetch allVersionTags) sched).log.Nodup :=
    hinv.hlognd.of_map
  have hkeys : (((nAtATime 25 typings
      (registryEntry npmReg fetch allVersionTags) sched).log.map
        Prod.snd).map Prod.fst).Nodup := by
    rw [List.map_map]
    refine List.Nodup.map_on ?_ hlgnd
    rintro ⟨i, p⟩ hip ⟨i1, q⟩ hiq heq
    simp only [Function.comp] at heq
    rcases hname (i, p) hip with ⟨t, ht, hpn, _⟩
    rcases hname (i1, q) hiq with ⟨t1, ht1, hqn, _⟩
    have hiM : i < typings.length := by
      rcases List.get?_eq_some.mp ht with ⟨h, _⟩
      exact h
    have hieq : i = i1 := by
      refine @List.get?_inj i String (typings.map TypingsData.name) i1 (by simpa) hnd ?_
      rw [List.get?_map, List.get?_map, ht, ht1]
      simp [← hpn, ← hqn, heq]
    subst hieq
    have hpq : p = q := map_fst_nodup_inj hinv.hlognd hip hiq
    rw [hpq]
  have hentries : entriesOfLog (nAtATime 25 typings
      (registryEntry npmReg fetch allVersionTags) sched).log =
      (nAtATime 25 typings
        (registryEntry npmReg fetch allVersionTags) sched).log.map Prod.snd :=
    entriesOfLog_eq_map _ hkeys
  constructor
  · show ((entriesOfLog _).map Prod.fst).Perm _
    rw [hentries]
    have hA : ((nAtATime 25 typings
        (registryEntry npmReg fetch allVersionTags) sched).log.map
          Prod.snd).map Prod.fst =
        ((nAtATime 25 typings
          (registryEntry npmReg fetch allVersionTags) sched).log.map
            Prod.fst).map
          (fun i => ((typings.get? i).map TypingsData.name).getD "") := by
      rw [List.map_map, List.map_map]
      refine List.map_congr_left ?_
      rintro ⟨i, p⟩ hmem
      rcases hname (i, p) hmem with ⟨t, ht, hpn, _⟩
      rw [List.get?_eq_getElem?] at ht
      simpa [Function.comp, ht] using hpn
    have hC : (List.range typings.length).map
        (fun i => ((typings.get? i).map TypingsData.name).getD "") =
        typings.map TypingsData.name := by
      refine List.ext_get? ?_
      intro i
      by_cases hi : i < typings.length
      · rcases hx : typings.get? i with _ | t
        · have := List.get?_eq_none.mp hx
          omega
        · rw [List.get?_map, List.get?_map, List.get?_range hi, hx]
          rw [List.get?_eq_getElem?] at hx
          simp [hx]
      · rw [List.get?_map, List.get?_map]
        have h1 : (List.range typings.length).get? i = none := by
          rw [List.get?_eq_none]
          simpa using (by omega : typings.length ≤ i)
        have h2 : typings.get? i = none := by
          rw [List.get?_eq_none]
          omega
        rw [h1, h2]
        rfl
    rw [hA, ← hC]
    exact hperm.map _
  · intro t ht
    obtain ⟨i, hi⟩ := List.mem_iff_get?.mp ht
    rcases hall i t hi with ⟨p, hok, _⟩
    rcases (registryEntry_ok_iff npmReg fetch allVersionTags t p).mp hok with
      ⟨info, hinfo, hp⟩
    have hmem : (i, p) ∈ (nAtATime 25 typings
        (registryEntry npmReg fetch allVersionTags) sched).log :=
      (hlogiff i p).mpr ⟨t, hi, hok⟩
    have hmem2 : (t.name, pick info.distTags allVersionTags) ∈
        (nAtATime 25 typings
          (registryEntry npmReg fetch allVersionTags) sched).log.map
            Prod.snd := by
      refine List.mem_map.mpr ⟨(i, p), hmem, ?_⟩
      rw [hp]
    refine ⟨info, hinfo, ?_⟩
    show lookupEntries (entriesOfLog _) t.name = _
    rw [hentries]
    exact lookupEntries_of_mem hkeys hmem2

/-- C4: if the registry fetch for any single typing fails then no completion
order lets the batch succeed — `generateRegistry` never returns a partial or
empty index — the sequential schedule exhibits the rejection with that very
error, and every rejection the mapper ever reports is some typing's fetch
error (per-item failures are not caught). -/
theorem generateRegistry_fetch_failure {ε : Type} (npmReg : String)
    (fetch : String → Except ε NpmInfo) (allVersionTags : List String)
    (typings : List TypingsData) (j : Nat) (t : TypingsData) (e : ε)
    (ht : typings.get? j = some t)
    (he : fetch (npmReg ++ t.fullEscapedNpmName) = .error e)
    (hmin : ∀ i t1, i < j → typings.get? i = some t1 →
      ∃ info, fetch (npmReg ++ t1.fullEscapedNpmName) = .ok info) :
    (∀ sched, generateRegistry npmReg fetch allVersionTags typings sched = none) ∧
    (generateRegistryRun npmReg fetch allVersionTags typings
        (seqSched (j + 1))).failed = some e ∧
    (∀ sched e1,
      (generateRegistryRun npmReg fetch allVersionTags typings sched).failed = some e1 →
      ∃ t1 ∈ typings, fetch (npmReg ++ t1.fullEscapedNpmName) = .error e1) := by
  have hferr : registryEntry npmReg fetch allVersionTags t = .error e :=
    (registryEntry_error_iff npmReg fetch allVersionTags t e).mpr he
  have hjM : j < typings.length := by
    rcases List.get?_eq_some.mp ht with ⟨h, _⟩
    exact h
  refine ⟨?_, ?_, ?_⟩
  · intro sched
    have hns := @error_no_success TypingsData (String × Versions) ε 25 typings
      (registryEntry npmReg fetch allVersionTags) (by omega) j t e ht hferr sched
    simp [generateRegistry, generateRegistryRun, hns]
  · have hok : ∀ i a, i < j → typings.get? i = some a →
        ∃ b, registryEntry npmReg fetch allVersionTags a = .ok b := by
      intro i a hij ha
      rcases hmin i a hij ha with ⟨info, hinfo⟩
      exact ⟨(a.name, pick info.distTags allVersionTags),
        (registryEntry_ok_iff npmReg fetch allVersionTags a _).mpr
          ⟨info, hinfo, rfl⟩⟩
    obtain ⟨ic, ii, ip, ifw, ifl⟩ :=
      seqSched_run (registryEntry npmReg fetch allVersionTags) typings 25
        (by omega) j (by omega) (fun i a hij ha => hok i a hij ha)
    have hW : 1 ≤ min 25 typings.length := by omega
    have hsplit : nAtATime 25 typings
        (registryEntry npmReg fetch allVersionTags) (seqSched (j + 1)) =
        runFrom (registryEntry npmReg fetch allVersionTags) typings
          (nAtATime 25 typings
            (registryEntry npmReg fetch allVersionTags) (seqSched j))
          [MAction.claim, MAction.complete 0] := by
      simp [nAtATime, seqSched, runFrom_append]
    show (nAtATime 25 typings
      (registryEntry npmReg fetch allVersionTags) (seqSched (j + 1))).failed = some e
    rw [hsplit]
    exact claim_complete_error ic ii ip hW hjM ht hferr ifl
  · intro sched e1 hfl
    rcases (inv_nAtATime (registryEntry npmReg fetch allVersionTags) typings
        25 sched).herr e1 hfl with ⟨t1, ht1, herr1⟩
    exact ⟨t1, ht1, (registryEntry_error_iff npmReg fetch allVersionTags t1 e1).mp herr1⟩

/-! ## Trace lemmas for the embedded pipeline -/

theorem fetchEvents_shape {ε : Type} (npmReg : String)
    (typings : List TypingsData) (s : MState (String × Versions) ε) :
    ∀ ev ∈ fetchEvents npmReg typings s, ∃ u, ev = Event.fetched u := by
  intro ev hev
  rw [fetchEvents] at hev
  split at hev
  · rcases List.mem_map.mp hev with ⟨t, _, ht⟩
    exact ⟨_, ht.symm⟩
  · rcases List.mem_filterMap.mp hev with ⟨ib, _, ht⟩
    rcases Option.map_eq_some'.mp ht with ⟨t, _, ht2⟩
    exact ⟨_, ht2.symm⟩

theorem generate_events_shape {ε : Type} (env : Env ε)
    (typings : List TypingsData) (pj : PackageJson) (lines : List String) :
    ∀ ev ∈ (generate env typings pj lines).1, isGenEv ev = true := by
  intro ev hev
  rcases hco : env.clearOutput with e | cl
  · simp [generate, hco] at hev
    subst hev
    rfl
  · rcases hwp : env.writeJson (joinPaths registryOutputPath "package.json") with e | u
    · simp [generate, hco, hwp] at hev
      rcases hev with rfl | rfl <;> rfl
    · by_cases hsb : (generateRegistryRun env.npmRegistry env.fetch
        env.allVersionTags typings env.sched).successB = true
      · rcases hwi : env.writeJson (joinPaths registryOutputPath "index.json") with e | u1
        · simp [generate, hco, hwp, hsb, hwi] at hev
          rcases hev with rfl | rfl | hf | rfl
          · rfl
          · rfl
          · rcases fetchEvents_shape _ _ _ ev hf with ⟨u2, rfl⟩
            rfl
          · rfl
        · rcases hwr : env.writeJson (joinPaths registryOutputPath "README.md") with e | u2
          · simp [generate, hco, hwp, hsb, hwi, hwr] at hev
            rcases hev with rfl | rfl | hf | rfl | rfl
            · rfl
            · rfl
            · rcases fetchEvents_shape _ _ _ ev hf with ⟨u3, rfl⟩
              rfl
            · rfl
            · rfl
          · simp [generate, hco, hwp, hsb, hwi, hwr] at hev
            rcases hev with rfl | rfl | hf | rfl | rfl
            · rfl
            · rfl
            · rcases fetchEvents_shape _ _ _ ev hf with ⟨u3, rfl⟩
              rfl
            · rfl
            · rfl
      · rcases hfl : (generateRegistryRun env.npmRegistry env.fetch
            env.allVersionTags typings env.sched).failed with _ | e
        · simp [generate, hco, hwp, hsb, hfl] at hev
          rcases hev with rfl | rfl | hf
          · rfl
          · rfl
          · rcases fetchEvents_shape _ _ _ ev hf with ⟨u2, rfl⟩
            rfl
        · simp [generate, hco, hwp, hsb, hfl] at hev
          rcases hev with rfl | rfl | hf
          · rfl
          · rfl
          · rcases fetchEvents_shape _ _ _ ev hf with ⟨u2, rfl⟩
            rfl

theorem publish_events_shape {ε : Type} (env : Env ε) (pj : PackageJson)
    (dry : Bool) : ∀ ev ∈ (publish env pj dry).1,
      ev = Event.published registryOutputPath pj.version dry := by
  intro ev hev
  rcases hcc : env.clientCreate with e | u <;> simp [publish, hcc] at hev
  exact hev

theorem gAPR_events_shape {ε : Type} (env : Env ε) (lines : List String)
    (dry : Bool) : ∀ ev ∈ (generateAndPublishRegistry env lines dry).1,
      isGenEv ev = true ∨ ∃ p v d, ev = Event.published p v d := by
  intro ev hev
  rcases hrt : env.readTypings with e | typings
  · simp [generateAndPublishRegistry, hrt] at hev
  · rcases hlp : env.fetchLastPatchNumber with e | last
    · simp [generateAndPublishRegistry, hrt, hlp] at hev
    · rcases hg : generate env typings (generatePackageJson (last + 1)) lines with ⟨gevs, gres⟩
      have hgen : ∀ ev1 ∈ gevs, isGenEv ev1 = true := by
        intro ev1 h1
        refine generate_events_shape env typings (generatePackageJson (last + 1)) lines ev1 ?_
        rw [hg]
        exact h1
      cases gres with
      | error e =>
        simp [generateAndPublishRegistry, hrt, hlp, hg] at hev
        exact Or.inl (hgen ev hev)
      | ok lines2 =>
        rcases hp : publish env (generatePackageJson (last + 1)) dry with ⟨pevs, pres⟩
        have hpub : ∀ ev1 ∈ pevs, ev1 = Event.published registryOutputPath
            (generatePackageJson (last + 1)).version dry := by
          intro ev1 h1
          refine publish_events_shape env (generatePackageJson (last + 1)) dry ev1 ?_
          rw [hp]
          exact h1
        cases pres with
        | error e =>
          simp [generateAndPublishRegistry, hrt, hlp, hg, hp] at hev
          rcases hev with h1 | h1
          · exact Or.inl (hgen ev h1)
          · exact Or.inr ⟨_, _, _, hpub ev h1⟩
        | ok u =>
          simp [generateAndPublishRegistry, hrt, hlp, hg, hp] at hev
          rcases hev with h1 | h1
          · exact Or.inl (hgen ev h1)
          · exact Or.inr ⟨_, _, _, hpub ev h1⟩

theorem wroteLog_not_in_gAPR {ε : Type} (env : Env ε) (lines : List String)
    (dry : Bool) (f : String) (ls : List String) :
    Event.wroteLog f ls ∉ (generateAndPublishRegistry env lines dry).1 := by
  intro h
  rcases gAPR_events_shape env lines dry _ h with h1 | ⟨p, v, d, h2⟩
  · simp [isGenEv] at h1
  · cases h2

/-- The event trace of a successful generation, in program order. -/
theorem generate_ok_events {ε : Type} (env : Env ε) (typings : List TypingsData)
    (pj : PackageJson) (lines : List String) (gevs : List Event)
    (lines2 : List String)
    (h : generate env typings pj lines = (gevs, .ok lines2)) :
    gevs = [Event.clearedOutput registryOutputPath,
        Event.wroteFile (joinPaths registryOutputPath "package.json")
          (.packageJson pj)] ++
      fetchEvents env.npmRegistry typings
        (generateRegistryRun env.npmRegistry env.fetch env.allVersionTags
          typings env.sched) ++
      [Event.wroteFile (joinPaths registryOutputPath "index.json")
        (.indexJson ⟨entriesOfLog (generateRegistryRun env.npmRegistry
          env.fetch env.allVersionTags typings env.sched).log⟩),
       Event.wroteFile (joinPaths registryOutputPath "README.md")
         (.readme readme)] := by
  rcases hco : env.clearOutput with e | cl
  · simp [generate, hco] at h
  · rcases hwp : env.writeJson (joinPaths registryOutputPath "package.json") with e | u
    · simp [generate, hco, hwp] at h
    · by_cases hsb : (generateRegistryRun env.npmRegistry env.fetch
        env.allVersionTags typings env.sched).successB = true
      · rcases hwi : env.writeJson (joinPaths registryOutputPath "index.json") with e | u1
        · simp [generate, hco, hwp, hsb, hwi] at h
        · rcases hwr : env.writeJson (joinPaths registryOutputPath "README.md") with e | u2
          · simp [generate, hco, hwp, hsb, hwi, hwr] at h
          · simp [generate, hco, hwp, hsb, hwi, hwr] at h
            simp [← h.1]
      · rcases hfl : (generateRegistryRun env.npmRegistry env.fetch
            env.allVersionTags typings env.sched).failed with _ | e
        · simp [generate, hco, hwp, hsb, hfl] at h
        · simp [generate, hco, hwp, hsb, hfl] at h

theorem setDryEv_of_gen {ev : Event} (h : isGenEv ev = true) :
    setDryEv ev = ev := by
  cases ev <;> simp [isGenEv, setDryEv] at h ⊢

/-- Every event a generation emits, with its payload. -/
theorem generate_events_cases {ε : Type} (env : Env ε)
    (typings : List TypingsData) (pj : PackageJson) (lines : List String) :
    ∀ ev ∈ (generate env typings pj lines).1,
      ev = Event.clearedOutput registryOutputPath ∨
      ev = Event.wroteFile (joinPaths registryOutputPath "package.json")
        (.packageJson pj) ∨
      (∃ u, ev = Event.fetched u) ∨
      (∃ r, ev = Event.wroteFile (joinPaths registryOutputPath "index.json")
        (.indexJson r)) ∨
      ev = Event.wroteFile (joinPaths registryOutputPath "README.md")
        (.readme readme) := by
  intro ev hev
  rcases hco : env.clearOutput with e | cl
  · simp [generate, hco] at hev
    exact Or.inl hev
  · rcases hwp : env.writeJson (joinPaths registryOutputPath "package.json") with e | u
    · simp [generate, hco, hwp] at hev
      rcases hev with rfl | rfl
      · exact Or.inl rfl
      · exact Or.inr (Or.inl rfl)
    · by_cases hsb : (generateRegistryRun env.npmRegistry env.fetch
        env.allVersionTags typings env.sched).successB = true
      · rcases hwi : env.writeJson (joinPaths registryOutputPath "index.json") with e | u1
        · simp [generate, hco, hwp, hsb, hwi] at hev
          rcases hev with rfl | rfl | hf | rfl
          · exact Or.inl rfl
          · exact Or.inr (Or.inl rfl)
          · exact Or.inr (Or.inr (Or.inl (fetchEvents_shape _ _ _ ev hf)))
          · exact Or.inr (Or.inr (Or.inr (Or.inl ⟨_, rfl⟩)))
        · rcases hwr : env.writeJson (joinPaths registryOutputPath "README.md") with e | u2
          · simp [generate, hco, hwp, hsb, hwi, hwr] at hev
            rcases hev with rfl | rfl | hf | rfl | rfl
            · exact Or.inl rfl
            · exact Or.inr (Or.inl rfl)
            · exact Or.inr (Or.inr (Or.inl (fetchEvents_shape _ _ _ ev hf)))
            · exact Or.inr (Or.inr (Or.inr (Or.inl ⟨_, rfl⟩)))
            · exact Or.inr (Or.inr (Or.inr (Or.inr rfl)))
          · simp [generate, hco, hwp, hsb, hwi, hwr] at hev
            rcases hev with rfl | rfl | hf | rfl | rfl
            · exact Or.inl rfl
            · exact Or.inr (Or.inl rfl)
            · exact Or.inr (Or.inr (Or.inl (fetchEvents_shape _ _ _ ev hf)))
            · exact Or.inr (Or.inr (Or.inr (Or.inl ⟨_, rfl⟩)))
            · exact Or.inr (Or.inr (Or.inr (Or.inr rfl)))
      · rcases hfl : (generateRegistryRun env.npmRegistry env.fetch
            env.allVersionTags typings env.sched).failed with _ | e
        · simp [generate, hco, hwp, hsb, hfl] at hev
          rcases hev with rfl | rfl | hf
          · exact Or.inl rfl
          · exact Or.inr (Or.inl rfl)
          · exact Or.inr (Or.inr (Or.inl (fetchEvents_shape _ _ _ ev hf)))
        · simp [generate, hco, hwp, hsb, hfl] at hev
          rcases hev with rfl | rfl | hf
          · exact Or.inl rfl
          · exact Or.inr (Or.inl rfl)
          · exact Or.inr (Or.inr (Or.inl (fetchEvents_shape _ _ _ ev hf)))

/-- The only manifest ever written by a generation is the one passed in. -/
theorem packageJson_write_in_generate {ε : Type} (env : Env ε)
    (typings : List TypingsData) (pj : PackageJson) (lines : List String)
    (path : String) (pj1 : PackageJson)
    (h : Event.wroteFile path (.packageJson pj1) ∈ (generate env typings pj lines).1) :
    pj1 = pj := by
  rcases generate_events_cases env typings pj lines _ h with
    h1 | h1 | ⟨u, h1⟩ | ⟨r, h1⟩ | h1
  · cases h1
  · simp only [Event.wroteFile.injEq, FileContent.packageJson.injEq] at h1
    exact h1.2
  · cases h1
  · simp at h1
  · simp at h1

/-- A publish event in a run implies that generation already returned
successfully, and that the clear and the three writes all precede it in the
trace. -/
theorem gAPR_publish_after_generation {ε : Type} (env : Env ε)
    (lines : List String) (dry : Bool) (p v : String) (d : Bool)
    (hp : Event.published p v d ∈ (generateAndPublishRegistry env lines dry).1) :
    (∃ typings last lines2, env.readTypings = .ok typings ∧
      env.fetchLastPatchNumber = .ok last ∧
      (generate env typings (generatePackageJson (last + 1)) lines).2 = .ok lines2) ∧
    ∃ l1 l2, (generateAndPublishRegistry env lines dry).1 =
        l1 ++ Event.published p v d :: l2 ∧
      Event.clearedOutput registryOutputPath ∈ l1 ∧
      (∃ pj, Event.wroteFile (joinPaths registryOutputPath "package.json")
        (.packageJson pj) ∈ l1) ∧
      (∃ r, Event.wroteFile (joinPaths registryOutputPath "index.json")
        (.indexJson r) ∈ l1) ∧
      Event.wroteFile (joinPaths registryOutputPath "README.md")
        (.readme readme) ∈ l1 := by
  rcases hrt : env.readTypings with e | typings
  · simp [generateAndPublishRegistry, hrt] at hp
  · rcases hlp : env.fetchLastPatchNumber with e | last
    · simp [generateAndPublishRegistry, hrt, hlp] at hp
    · rcases hg : generate env typings (generatePackageJson (last + 1)) lines with ⟨gevs, gres⟩
      have hgen : ∀ ev1 ∈ gevs, isGenEv ev1 = true := by
        intro ev1 h1
        refine generate_events_shape env typings (generatePackageJson (last + 1)) lines ev1 ?_
        rw [hg]
        exact h1
      have hnp : Event.published p v d ∉ gevs := by
        intro hmem
        have h2 := hgen _ hmem
        simp [isGenEv] at h2
      cases gres with
      | error e =>
        simp [generateAndPublishRegistry, hrt, hlp, hg] at hp
        exact absurd hp hnp
      | ok lines2 =>
        have hge := generate_ok_events env typings (generatePackageJson (last + 1))
          lines gevs lines2 hg
        rcases hcc : env.clientCreate with e | u
        · simp [generateAndPublishRegistry, hrt, hlp, hg, publish, hcc] at hp
          exact absurd hp hnp
        · have hmem1 : Event.clearedOutput registryOutputPath ∈ gevs := by
            rw [hge]
            simp
          have hmem2 : Event.wroteFile (joinPaths registryOutputPath "package.json")
              (.packageJson (generatePackageJson (last + 1))) ∈ gevs := by
            rw [hge]
            simp
          have hmem3 : Event.wroteFile (joinPaths registryOutputPath "index.json")
              (.indexJson ⟨entriesOfLog (generateRegistryRun env.npmRegistry
                env.fetch env.allVersionTags typings env.sched).log⟩) ∈ gevs := by
            rw [hge]
            simp
          have hmem4 : Event.wroteFile (joinPaths registryOutputPath "README.md")
              (.readme readme) ∈ gevs := by
            rw [hge]
            simp
          rcases hpr : env.publishResult with e | u1
          · simp [generateAndPublishRegistry, hrt, hlp, hg, publish, hcc, hpr] at hp
            rcases hp with hp | hp
            · exact absurd hp hnp
            · obtain ⟨rfl, rfl, rfl⟩ := hp
              refine ⟨⟨typings, last, lines2, rfl, rfl, by rw [hg]⟩,
                gevs, [], ?_, hmem1, ⟨_, hmem2⟩, ⟨_, hmem3⟩, hmem4⟩
              simp [generateAndPublishRegistry, hrt, hlp, hg, publish, hcc, hpr]
          · simp [generateAndPublishRegistry, hrt, hlp, hg, publish, hcc, hpr] at hp
            rcases hp with hp | hp
            · exact absurd hp hnp
            · obtain ⟨rfl, rfl, rfl⟩ := hp
              refine ⟨⟨typings, last, lines2, rfl, rfl, by rw [hg]⟩,
                gevs, [], ?_, hmem1, ⟨_, hmem2⟩, ⟨_, hmem3⟩, hmem4⟩
              simp [generateAndPublishRegistry, hrt, hlp, hg, publish, hcc, hpr]

/-- Every manifest write and every publish in a run carries the version
computed from the fetched last patch number. -/
theorem gAPR_manifest {ε : Type} (env : Env ε) (lines : List String)
    (dry : Bool) (last : Int) (hlast : env.fetchLastPatchNumber = .ok last) :
    (∀ path pj1, Event.wroteFile path (.packageJson pj1) ∈
        (generateAndPublishRegistry env lines dry).1 →
      pj1 = generatePackageJson (last + 1)) ∧
    (∀ p v d, Event.published p v d ∈
        (generateAndPublishRegistry env lines dry).1 →
      v = (generatePackageJson (last + 1)).version) := by
  rcases hrt : env.readTypings with e | typings
  · refine ⟨?_, ?_⟩
    · intro path pj1 h
      simp [generateAndPublishRegistry, hrt] at h
    · intro p v d h
      simp [generateAndPublishRegistry, hrt] at h
  · rcases hg : generate env typings (generatePackageJson (last + 1)) lines with ⟨gevs, gres⟩
    have hwr : ∀ path pj1, Event.wroteFile path (.packageJson pj1) ∈ gevs →
        pj1 = generatePackageJson (last + 1) := by
      intro path pj1 h1
      refine packageJson_write_in_generate env typings _ lines path pj1 ?_
      rw [hg]
      exact h1
    have hnpg : ∀ p v d, Event.published p v d ∉ gevs := by
      intro p v d hmem
      have h2 := generate_events_shape env typings (generatePackageJson (last + 1))
        lines (Event.published p v d) (by rw [hg]; exact hmem)
      simp [isGenEv] at h2
    cases gres with
    | error e =>
      constructor
      · intro path pj1 h
        simp [generateAndPublishRegistry, hrt, hlast, hg] at h
        exact hwr path pj1 h
      · intro p v d h
        simp [generateAndPublishRegistry, hrt, hlast, hg] at h
        exact absurd h (hnpg p v d)
    | ok lines2 =>
      rcases hpp : publish env (generatePackageJson (last + 1)) dry with ⟨pevs, pres⟩
      have hpub : ∀ ev1 ∈ pevs, ev1 = Event.published registryOutputPath
          (generatePackageJson (last + 1)).version dry := by
        intro ev1 h1
        refine publish_events_shape env (generatePackageJson (last + 1)) dry ev1 ?_
        rw [hpp]
        exact h1
      have hmain : ∀ ev1, ev1 ∈ (generateAndPublishRegistry env lines dry).1 →
          ev1 ∈ gevs ∨ ev1 ∈ pevs := by
        intro ev1 h1
        cases pres with
        | error e =>
          simp [generateAndPublishRegistry, hrt, hlast, hg, hpp] at h1
          exact h1
        | ok u =>
          simp [generateAndPublishRegistry, hrt, hlast, hg, hpp] at h1
          exact h1
      constructor
      · intro path pj1 h
        rcases hmain _ h with h1 | h1
        · exact hwr path pj1 h1
        · have h2 := hpub _ h1
          cases h2
      · intro p v d h
        rcases hmain _ h with h1 | h1
        · exact absurd h1 (hnpg p v d)
        · have h2 := hpub _ h1
          cases h2
          rfl

/-- The dry flag handed to the publish client is exactly the one `main` was
called with. -/
theorem gAPR_published_dry {ε : Type} (env : Env ε) (lines : List String)
    (dry : Bool) (p v : String) (d : Bool)
    (h : Event.published p v d ∈ (generateAndPublishRegistry env lines dry).1) :
    d = dry := by
  rcases hrt : env.readTypings with e | typings
  · simp [generateAndPublishRegistry, hrt] at h
  · rcases hlp : env.fetchLastPatchNumber with e | last
    · simp [generateAndPublishRegistry, hrt, hlp] at h
    · rcases hg : generate env typings (generatePackageJson (last + 1)) lines with ⟨gevs, gres⟩
      have hnpg : Event.published p v d ∉ gevs := by
        intro hmem
        have h2 := generate_events_shape env typings (generatePackageJson (last + 1))
          lines (Event.published p v d) (by rw [hg]; exact hmem)
        simp [isGenEv] at h2
      cases gres with
      | error e =>
        simp [generateAndPublishRegistry, hrt, hlp, hg] at h
        exact absurd h hnpg
      | ok lines2 =>
        rcases hpp : publish env (generatePackageJson (last + 1)) dry with ⟨pevs, pres⟩
        have hpub : ∀ ev1 ∈ pevs, ev1 = Event.published registryOutputPath
            (generatePackageJson (last + 1)).version dry := by
          intro ev1 h1
          refine publish_events_shape env (generatePackageJson (last + 1)) dry ev1 ?_
          rw [hpp]
          exact h1
        have hd : Event.published p v d ∈ pevs → d = dry := by
          intro h1
          have h2 := hpub _ h1
          cases h2
          rfl
        cases pres with
        | error e =>
          simp [generateAndPublishRegistry, hrt, hlp, hg, hpp] at h
          rcases h with h1 | h1
          · exact absurd h1 hnpg
          · exact hd h1
        | ok u =>
          simp [generateAndPublishRegistry, hrt, hlp, hg, hpp] at h
          rcases h with h1 | h1
          · exact absurd h1 hnpg
          · exact hd h1

/-- Only the dry flag of the publish event distinguishes a dry run from a
real one: generation events and the overall outcome are identical. -/
theorem gAPR_dry {ε : Type} (env : Env ε) (lines : List String) :
    (generateAndPublishRegistry env lines true).1 =
      ((generateAndPublishRegistry env lines false).1).map setDryEv ∧
    (generateAndPublishRegistry env lines true).2 =
      (generateAndPublishRegistry env lines false).2 := by
  rcases hrt : env.readTypings with e | typings
  · simp [generateAndPublishRegistry, hrt]
  · rcases hlp : env.fetchLastPatchNumber with e | last
    · simp [generateAndPublishRegistry, hrt, hlp]
    · rcases hg : generate env typings (generatePackageJson (last + 1)) lines with ⟨gevs, gres⟩
      have hmapg : gevs.map setDryEv = gevs := by
        have h1 : ∀ ev ∈ gevs, setDryEv ev = ev := by
          intro ev h2
          refine setDryEv_of_gen (generate_events_shape env typings
            (generatePackageJson (last + 1)) lines ev ?_)
          rw [hg]
          exact h2
        rw [List.map_congr_left h1]
        exact List.map_id gevs
      cases gres with
      | error e =>
        simp [generateAndPublishRegistry, hrt, hlp, hg, hmapg]
      | ok lines2 =>
        rcases hcc : env.clientCreate with e | u
        · simp [generateAndPublishRegistry, hrt, hlp, hg, publish, hcc, hmapg]
        · rcases hpr : env.publishResult with e | u1 <;>
            simp [generateAndPublishRegistry, hrt, hlp, hg, publish, hcc, hpr,
              hmapg, setDryEv]

/-- Case analysis of a whole run of `main`: the trace in each of the four
outcomes. -/
theorem main_events_decomp {ε : Type} (env : Env ε) (dry : Bool) :
    (∃ e, env.readAdditions = .error e ∧
      (main env dry).1 = [Event.readAdditionsEv]) ∨
    (env.readAdditions = .ok [] ∧ (main env dry).1 =
      [Event.readAdditionsEv, Event.wroteLog "publish-registry.md"
        ["=== Publishing types-registry ===",
         "No new packages published, so no need to publish new registry."]]) ∨
    (∃ added gevs gres, env.readAdditions = .ok added ∧ added ≠ [] ∧
      generateAndPublishRegistry env
        ["=== Publishing types-registry ===",
         "New packages have been added: " ++ jsonStringifyStrings added ++
           ", so publishing a new registry"] dry = (gevs, gres) ∧
      ((∃ e, gres = .error e ∧
          (main env dry).1 = Event.readAdditionsEv :: gevs) ∨
       (∃ ls2, gres = .ok ls2 ∧
          (main env dry).1 = Event.readAdditionsEv :: gevs ++
            [Event.wroteLog "publish-registry.md" ls2]))) := by
  rcases hra : env.readAdditions with e | added
  · exact Or.inl ⟨e, rfl, by simp [main, hra]⟩
  · by_cases hemp : added = []
    · subst hemp
      exact Or.inr (Or.inl ⟨rfl, by simp [main, hra]⟩)
    · have hlen : ¬ added.length = 0 := by simpa using hemp
      rcases hg : generateAndPublishRegistry env
          ["=== Publishing types-registry ===",
           "New packages have been added: " ++ jsonStringifyStrings added ++
             ", so publishing a new registry"] dry with ⟨gevs, gres⟩
      refine Or.inr (Or.inr ⟨added, gevs, gres, rfl, hemp, ?_, ?_⟩)
      · exact hg
      · cases gres with
        | error e => exact Or.inl ⟨e, rfl, by simp [main, hra, hlen, hg]⟩
        | ok ls2 => exact Or.inr ⟨ls2, rfl, by simp [main, hra, hlen, hg]⟩

/-! ## Claim theorems for the run pipeline -/

/-- C5: the publish client is invoked only after generation (clearing the
output path and writing package.json, index.json, README.md) completed
successfully: any publish event in a run's trace is preceded by the clear
and the three writes, and its presence implies the generate stage returned
success — so when any generation step fails, nothing is ever published. -/
theorem main_publish_after_generation {ε : Type} (env : Env ε) (dry : Bool)
    (p v : String) (d : Bool)
    (hp : Event.published p v d ∈ (main env dry).1) :
    (∃ typings last lines lines2, env.readTypings = .ok typings ∧
      env.fetchLastPatchNumber = .ok last ∧
      (generate env typings (generatePackageJson (last + 1)) lines).2 = .ok lines2) ∧
    ∃ l1 l2, (main env dry).1 = l1 ++ Event.published p v d :: l2 ∧
      Event.clearedOutput registryOutputPath ∈ l1 ∧
      (∃ pj, Event.wroteFile (joinPaths registryOutputPath "package.json")
        (.packageJson pj) ∈ l1) ∧
      (∃ r, Event.wroteFile (joinPaths registryOutputPath "index.json")
        (.indexJson r) ∈ l1) ∧
      Event.wroteFile (joinPaths registryOutputPath "README.md")
        (.readme readme) ∈ l1 := by
  rcases main_events_decomp env dry with
    ⟨e, hra, hev⟩ | ⟨hra, hev⟩ | ⟨added, gevs, gres, hra, hne, hg, hcase⟩
  · rw [hev] at hp
    simp at hp
  · rw [hev] at hp
    simp at hp
  · have hpg : Event.published p v d ∈ (generateAndPublishRegistry env
        ["=== Publishing types-registry ===",
         "New packages have been added: " ++ jsonStringifyStrings added ++
           ", so publishing a new registry"] dry).1 := by
      rw [hg]
      rcases hcase with ⟨e, hge, hev⟩ | ⟨ls2, hge, hev⟩
      · rw [hev] at hp
        rcases List.mem_cons.mp hp with h1 | h1
        · cases h1
        · exact h1
      · rw [hev] at hp
        rcases List.mem_cons.mp hp with h1 | h1
        · cases h1
        · rcases List.mem_append.mp h1 with h2 | h2
          · exact h2
          · simp at h2
    obtain ⟨⟨typings, last, lines2, hrt, hlp, hgen⟩, l1, l2, hEq, m1, m2, m3, m4⟩ :=
      gAPR_publish_after_generation env _ dry p v d hpg
    obtain ⟨pj2, m2⟩ := m2
    obtain ⟨r2, m3⟩ := m3
    refine ⟨⟨typings, last, _, lines2, hrt, hlp, hgen⟩, ?_⟩
    rw [hg] at hEq
    have hEq2 : gevs = l1 ++ Event.published p v d :: l2 := hEq
    rcases hcase with ⟨e, hge, hev⟩ | ⟨ls2, hge, hev⟩
    · refine ⟨Event.readAdditionsEv :: l1, l2, ?_, List.mem_cons_of_mem _ m1,
        ⟨pj2, List.mem_cons_of_mem _ m2⟩, ⟨r2, List.mem_cons_of_mem _ m3⟩,
        List.mem_cons_of_mem _ m4⟩
      rw [hev, hEq2]
      simp
    · refine ⟨Event.readAdditionsEv :: l1,
        l2 ++ [Event.wroteLog "publish-registry.md" ls2], ?_,
        List.mem_cons_of_mem _ m1, ⟨pj2, List.mem_cons_of_mem _ m2⟩,
        ⟨r2, List.mem_cons_of_mem _ m3⟩, List.mem_cons_of_mem _ m4⟩
      rw [hev, hEq2]
      simp

/-- C6: for every integer lastPatch returned by the patch-number lookup for
types-registry, the manifest written as package.json and the version handed
to the publish client both equal "0.1." followed by lastPatch + 1. -/
theorem main_version_from_last_patch {ε : Type} (env : Env ε) (dry : Bool)
    (last : Int) (hlast : env.fetchLastPatchNumber = .ok last) :
    (∀ path pj, Event.wroteFile path (.packageJson pj) ∈ (main env dry).1 →
      pj.version = "0.1." ++ toString (last + 1)) ∧
    (∀ p v d, Event.published p v d ∈ (main env dry).1 →
      v = "0.1." ++ toString (last + 1)) := by
  have hv : (generatePackageJson (last + 1)).version =
      "0.1." ++ toString (last + 1) := rfl
  rcases main_events_decomp env dry with
    ⟨e, hra, hev⟩ | ⟨hra, hev⟩ | ⟨added, gevs, gres, hra, hne, hg, hcase⟩
  · constructor
    · intro path pj h
      rw [hev] at h
      simp at h
    · intro p v d h
      rw [hev] at h
      simp at h
  · constructor
    · intro path pj h
      rw [hev] at h
      simp at h
    · intro p v d h
      rw [hev] at h
      simp at h
  · obtain ⟨hwr, hpb⟩ := gAPR_manifest env
      ["=== Publishing types-registry ===",
       "New packages have been added: " ++ jsonStringifyStrings added ++
         ", so publishing a new registry"] dry last hlast
    have hlift : ∀ ev : Event, ev ∈ (main env dry).1 →
        ev = Event.readAdditionsEv ∨ (∃ f ls, ev = Event.wroteLog f ls) ∨
        ev ∈ (generateAndPublishRegistry env
          ["=== Publishing types-registry ===",
           "New packages have been added: " ++ jsonStringifyStrings added ++
             ", so publishing a new registry"] dry).1 := by
      intro ev h1
      rcases hcase with ⟨e, hge, hev⟩ | ⟨ls2, hge, hev⟩ <;> rw [hev] at h1
      · rcases List.mem_cons.mp h1 with h2 | h2
        · exact Or.inl h2
        · refine Or.inr (Or.inr ?_)
          rw [hg]
          exact h2
      · rcases List.mem_cons.mp h1 with h2 | h2
        · exact Or.inl h2
        · rcases List.mem_append.mp h2 with h3 | h3
          · refine Or.inr (Or.inr ?_)
            rw [hg]
            exact h3
          · simp only [List.mem_singleton] at h3
            exact Or.inr (Or.inl ⟨_, _, h3⟩)
    constructor
    · intro path pj h
      rcases hlift _ h with h1 | ⟨f, ls, h1⟩ | h1
      · cases h1
      · cases h1
      · rw [hwr path pj h1]
        exact hv
    · intro p v d h
      rcases hlift _ h with h1 | ⟨f, ls, h1⟩ | h1
      · cases h1
      · cases h1
      · exact (hpb p v d h1).trans hv

/-- C7: the dry flag reaches the publish client unchanged — so with
dry = true the client is invoked in simulate mode — while the rest of the
run is untouched: the dry-run trace equals the real-run trace with only the
publish events' flag forced to true (in particular all file generation
occurs identically). -/
theorem main_dry_mode {ε : Type} (env : Env ε) :
    (∀ dry p v d, Event.published p v d ∈ (main env dry).1 → d = dry) ∧
    (main env true).1 = ((main env false).1).map setDryEv := by
  constructor
  · intro dry p v d h
    rcases main_events_decomp env dry with
      ⟨e, hra, hev⟩ | ⟨hra, hev⟩ | ⟨added, gevs, gres, hra, hne, hg, hcase⟩
    · rw [hev] at h
      simp at h
    · rw [hev] at h
      simp at h
    · refine gAPR_published_dry env
        ["=== Publishing types-registry ===",
         "New packages have been added: " ++ jsonStringifyStrings added ++
           ", so publishing a new registry"] dry p v d ?_
      rw [hg]
      rcases hcase with ⟨e, hge, hev⟩ | ⟨ls2, hge, hev⟩ <;> rw [hev] at h
      · rcases List.mem_cons.mp h with h1 | h1
        · cases h1
        · exact h1
      · rcases List.mem_cons.mp h with h1 | h1
        · cases h1
        · rcases List.mem_append.mp h1 with h2 | h2
          · exact h2
          · simp at h2
  · rcases hra : env.readAdditions with e | added
    · simp [main, hra, setDryEv]
    · by_cases hemp : added = []
      · subst hemp
        simp [main, hra, setDryEv]
      · have hlen : ¬ added.length = 0 := by simpa using hemp
        obtain ⟨h1, h2⟩ := gAPR_dry env
          ["=== Publishing types-registry ===",
           "New packages have been added: " ++ jsonStringifyStrings added ++
             ", so publishing a new registry"]
        rcases hgf : generateAndPublishRegistry env
            ["=== Publishing types-registry ===",
             "New packages have been added: " ++ jsonStringifyStrings added ++
               ", so publishing a new registry"] false with ⟨gevsF, gresF⟩
        have e1 : (generateAndPublishRegistry env
            ["=== Publishing types-registry ===",
             "New packages have been added: " ++ jsonStringifyStrings added ++
               ", so publishing a new registry"] true).1 = gevsF.map setDryEv := by
          rw [h1, hgf]
        have e2 : (generateAndPublishRegistry env
            ["=== Publishing types-registry ===",
             "New packages have been added: " ++ jsonStringifyStrings added ++
               ", so publishing a new registry"] true).2 = gresF := by
          rw [h2, hgf]
        have hgt : generateAndPublishRegistry env
            ["=== Publishing types-registry ===",
             "New packages have been added: " ++ jsonStringifyStrings added ++
               ", so publishing a new registry"] true =
            (gevsF.map setDryEv, gresF) := by
          rw [← e1, ← e2]
        cases gresF with
        | error e => simp [main, hra, hlen, hgf, hgt, setDryEv]
        | ok ls2 => simp [main, hra, hlen, hgf, hgt, setDryEv]

/-- C8: when the addition detector reports an empty collection, the run's
whole trace is the additions read followed by the run-log write — no file
writes, no registry fetches, no publish call. -/
theorem main_no_additions {ε : Type} (env : Env ε) (dry : Bool)
    (h : env.readAdditions = .ok []) :
    (main env dry).1 = [Event.readAdditionsEv,
      Event.wroteLog "publish-registry.md"
        ["=== Publishing types-registry ===",
         "No new packages published, so no need to publish new registry."]] := by
  simp [main, h]

/-- C9: the run log publish-registry.md is written exactly when execution
reaches the final logging step: an additions-read failure or a failed
generate-and-publish stage produces no log write, and any run that gets past
those steps writes the log in both branches. -/
theorem main_log_written_iff {ε : Type} (env : Env ε) (dry : Bool) :
    (∃ ls, Event.wroteLog "publish-registry.md" ls ∈ (main env dry).1) ↔
    (∃ added, env.readAdditions = .ok added ∧
      (added = [] ∨ ∃ evs ls2, generateAndPublishRegistry env
        ["=== Publishing types-registry ===",
         "New packages have been added: " ++ jsonStringifyStrings added ++
           ", so publishing a new registry"] dry = (evs, .ok ls2))) := by
  rcases main_events_decomp env dry with
    ⟨e, hra, hev⟩ | ⟨hra, hev⟩ | ⟨added, gevs, gres, hra, hne, hg, hcase⟩
  · constructor
    · rintro ⟨ls, h⟩
      rw [hev] at h
      simp at h
    · rintro ⟨added, hra2, _⟩
      rw [hra] at hra2
      cases hra2
  · constructor
    · intro _
      exact ⟨[], hra, Or.inl rfl⟩
    · intro _
      refine ⟨["=== Publishing types-registry ===",
        "No new packages published, so no need to publish new registry."], ?_⟩
      rw [hev]
      simp
  · rcases hcase with ⟨e, hge, hev⟩ | ⟨ls2, hge, hev⟩
    · subst hge
      constructor
      · rintro ⟨ls, h⟩
        rw [hev] at h
        rcases List.mem_cons.mp h with h1 | h1
        · cases h1
        · exact absurd (show Event.wroteLog "publish-registry.md" ls ∈
              (generateAndPublishRegistry env
                ["=== Publishing types-registry ===",
                 "New packages have been added: " ++ jsonStringifyStrings added ++
                   ", so publishing a new registry"] dry).1 by
              rw [hg]; exact h1)
            (wroteLog_not_in_gAPR env _ dry _ ls)
      · rintro ⟨added2, hra2, hcase2⟩
        rw [hra] at hra2
        cases hra2
        rcases hcase2 with rfl | ⟨evs, ls3, hg2⟩
        · exact absurd rfl hne
        · rw [hg] at hg2
          simp at hg2
    · subst hge
      constructor
      · intro _
        exact ⟨added, hra, Or.inr ⟨gevs, ls2, hg⟩⟩
      · intro _
        refine ⟨ls2, ?_⟩
        rw [hev]
        simp

/-! ## Witnesses at concrete inputs -/

/-- Witness for C1: the spec's two-package example yields exactly
entries a ↦ (latest 1.0.0, ts2.8 0.9.0) — bogus dropped — and
b ↦ (latest 2.0.0), keyed by name. -/
theorem generateRegistry_entries_witness :
    (exTypings.map TypingsData.name).Nodup ∧
    generateRegistry "npm:" exFetch exTags exTypings (fullSched 2 (min 25 2)) =
      some ⟨[("a", [("latest", "1.0.0"), ("ts2.8", "0.9.0")]),
             ("b", [("latest", "2.0.0")])]⟩ ∧
    (((⟨[("a", [("latest", "1.0.0"), ("ts2.8", "0.9.0")]),
          ("b", [("latest", "2.0.0")])]⟩ : Registry).entries.map Prod.fst).Perm
        (exTypings.map TypingsData.name) ∧
      ∀ t ∈ exTypings, ∃ info,
        exFetch ("npm:" ++ t.fullEscapedNpmName) = .ok info ∧
        lookupEntries (⟨[("a", [("latest", "1.0.0"), ("ts2.8", "0.9.0")]),
            ("b", [("latest", "2.0.0")])]⟩ : Registry).entries t.name =
          some (pick info.distTags exTags)) :=
  ⟨by decide, by decide,
    generateRegistry_entries "npm:" exFetch exTags exTypings
      (fullSched 2 (min 25 2))
      ⟨[("a", [("latest", "1.0.0"), ("ts2.8", "0.9.0")]),
        ("b", [("latest", "2.0.0")])]⟩
      (by decide) (by decide)⟩

/-- Witness for C2 at L = 2 over three items. -/
theorem nAtATime_maps_in_order_witness :
    1 ≤ 2 ∧
    ((∀ sched : List MAction,
        (nAtATime 2 [10, 20, 30] exF sched).successB = true →
        (nAtATime 2 [10, 20, 30] exF sched).slots.length =
          ([10, 20, 30] : List Nat).length ∧
        ∀ i a, ([10, 20, 30] : List Nat).get? i = some a →
          ∃ b, exF a = .ok b ∧
            (nAtATime 2 [10, 20, 30] exF sched).slots.get? i = some (some b)) ∧
      ((∀ j a, ([10, 20, 30] : List Nat).get? j = some a → ∃ b, exF a = .ok b) →
        (nAtATime 2 [10, 20, 30] exF
          (fullSched ([10, 20, 30] : List Nat).length
            (min 2 ([10, 20, 30] : List Nat).length))).successB = true)) :=
  ⟨by decide, nAtATime_maps_in_order 2 [10, 20, 30] exF (by decide)⟩

/-- Witness for C3 at L = 2 ≤ M = 3 under the sequential schedule. -/
theorem nAtATime_bounded_in_flight_witness :
    1 ≤ 2 ∧ 2 ≤ ([10, 20, 30] : List Nat).length ∧
    ((nAtATime 2 [10, 20, 30] exF (fullSched 3 (min 2 3))).pending.length ≤ 2 ∧
     (nAtATime 2 [10, 20, 30] exF (fullSched 3 (min 2 3))).pending.Nodup ∧
     ((nAtATime 2 [10, 20, 30] exF (fullSched 3 (min 2 3))).log.map Prod.fst).Nodup ∧
     (∀ i ∈ (nAtATime 2 [10, 20, 30] exF (fullSched 3 (min 2 3))).pending,
       i ∉ (nAtATime 2 [10, 20, 30] exF (fullSched 3 (min 2 3))).log.map Prod.fst) ∧
     ((nAtATime 2 [10, 20, 30] exF (fullSched 3 (min 2 3))).successB = true →
       ((nAtATime 2 [10, 20, 30] exF (fullSched 3 (min 2 3))).log.map
         Prod.fst).Perm (List.range ([10, 20, 30] : List Nat).length))) :=
  ⟨by decide, by decide,
    nAtATime_bounded_in_flight 2 [10, 20, 30] exF (by decide) (by decide)
      (fullSched 3 (min 2 3))⟩

/-- Witness for C4: one typing whose fetch always rejects with "boom". -/
theorem generateRegistry_fetch_failure_witness :
    ([⟨"a", "a"⟩] : List TypingsData).get? 0 = some ⟨"a", "a"⟩ ∧
    exBadFetch ("npm:" ++ "a") = .error "boom" ∧
    ((∀ sched, generateRegistry "npm:" exBadFetch exTags
        [⟨"a", "a"⟩] sched = none) ∧
     (generateRegistryRun "npm:" exBadFetch exTags [⟨"a", "a"⟩]
        (seqSched (0 + 1))).failed = some "boom" ∧
     (∀ sched e1, (generateRegistryRun "npm:" exBadFetch exTags
          [⟨"a", "a"⟩] sched).failed = some e1 →
       ∃ t1 ∈ ([⟨"a", "a"⟩] : List TypingsData),
         exBadFetch ("npm:" ++ t1.fullEscapedNpmName) = .error e1)) :=
  ⟨rfl, rfl,
    generateRegistry_fetch_failure "npm:" exBadFetch exTags [⟨"a", "a"⟩] 0
      ⟨"a", "a"⟩ "boom" rfl rfl
      (fun i t1 hi _ => absurd hi (Nat.not_lt_zero i))⟩

/-- Witness for C5: the fully successful environment publishes, and the
clear and three writes all precede the publish event. -/
theorem main_publish_after_generation_witness :
    Event.published registryOutputPath "0.1.42" true ∈ (main exEnv true).1 ∧
    ((∃ typings last lines lines2, exEnv.readTypings = .ok typings ∧
        exEnv.fetchLastPatchNumber = .ok last ∧
        (generate exEnv typings (generatePackageJson (last + 1)) lines).2 =
          .ok lines2) ∧
      ∃ l1 l2, (main exEnv true).1 =
          l1 ++ Event.published registryOutputPath "0.1.42" true :: l2 ∧
        Event.clearedOutput registryOutputPath ∈ l1 ∧
        (∃ pj, Event.wroteFile (joinPaths registryOutputPath "package.json")
          (.packageJson pj) ∈ l1) ∧
        (∃ r, Event.wroteFile (joinPaths registryOutputPath "index.json")
          (.indexJson r) ∈ l1) ∧
        Event.wroteFile (joinPaths registryOutputPath "README.md")
          (.readme readme) ∈ l1) :=
  ⟨by decide, main_publish_after_generation exEnv true registryOutputPath
    "0.1.42" true (by decide)⟩

/-- Witness for C6: with lastPatch 41 every manifest write and publish
carries version 0.1.42. -/
theorem main_version_from_last_patch_witness :
    exEnv.fetchLastPatchNumber = .ok 41 ∧
    ((∀ path pj, Event.wroteFile path (.packageJson pj) ∈ (main exEnv true).1 →
        pj.version = "0.1." ++ toString ((41 : Int) + 1)) ∧
      (∀ p v d, Event.published p v d ∈ (main exEnv true).1 →
        v = "0.1." ++ toString ((41 : Int) + 1))) :=
  ⟨rfl, main_version_from_last_patch exEnv true 41 rfl⟩

/-- Witness for C7 at the fully successful environment. -/
theorem main_dry_mode_witness :
    (∀ dry p v d, Event.published p v d ∈ (main exEnv dry).1 → d = dry) ∧
    (main exEnv true).1 = ((main exEnv false).1).map setDryEv :=
  main_dry_mode exEnv

/-- Witness for C8: the empty-additions environment only reads additions
and writes the log. -/
theorem main_no_additions_witness :
    exEnvEmpty.readAdditions = .ok [] ∧
    (main exEnvEmpty false).1 = [Event.readAdditionsEv,
      Event.wroteLog "publish-registry.md"
        ["=== Publishing types-registry ===",
         "No new packages published, so no need to publish new registry."]] :=
  ⟨rfl, main_no_additions exEnvEmpty false rfl⟩

/-- Witness for C9 at the fully successful environment. -/
theorem main_log_written_iff_witness :
    (∃ ls, Event.wroteLog "publish-registry.md" ls ∈ (main exEnv false).1) ↔
    (∃ added, exEnv.readAdditions = .ok added ∧
      (added = [] ∨ ∃ evs ls2, generateAndPublishRegistry exEnv
        ["=== Publishing types-registry ===",
         "New packages have been added: " ++ jsonStringifyStrings added ++
           ", so publishing a new registry"] false = (evs, .ok ls2))) :=
  main_log_written_iff exEnv false

end PublishRegistry
